import Mathlib

/-!
Verification of the practice-to-standard conversion pipeline.

This development gives a shallow embedding, in Lean, of the core logic of the
packmind-legacy-import-practices tool:

* the language registry (`ProgrammingLanguage`, `stringToProgrammingLanguage`,
  `convertProgrammingLanguage`),
* comment injection (`getCommentStyleForLanguage`,
  `addDescriptionAsCommentForLanguage`),
* code-context extraction (`getLineRange`, `extractCodeWithContext`),
* the practice-to-rule convertor (`shouldIncludeDetection`,
  `convertPracticeToRule`, `buildStandardDescription`),
* the clustering post-processing loop (`removeDuplicatesRandomly`,
  `findMissingPractices`, `mergeRetryResults`, `postProcessMapping`),
* the JSONL record parser (`parsePractice`).

JavaScript strings are modelled by Lean `String`; `toLowerCase`, `trim` and
`split('\n')` are modelled by the executable helpers `asciiLower`, `trimStr`
and `splitLines` below.  JavaScript's stable `Array.prototype.sort` is
modelled by the stable insertion sort `stableSort`.  `Math.random()`-driven
choices are modelled by universally quantified choice functions, reduced
modulo the number of alternatives so that every choice is in range, exactly
as `Math.floor(Math.random() * n)` always is.  YAML parsing of LLM responses
is abstracted as an `Option` of the decoded shape (`none` for a parse failure
or a missing `standards` key).
-/

namespace Packmind

/-! ## String helpers (models of the JavaScript string primitives) -/

/-- Model of `String.prototype.toLowerCase` on one character (ASCII range,
which is all the source's language identifiers and practice names use). -/
def asciiLowerChar (c : Char) : Char :=
  if 'A' ≤ c ∧ c ≤ 'Z' then Char.ofNat (c.toNat + 32) else c

/-- Model of `String.prototype.toUpperCase` on one character. -/
def asciiUpperChar (c : Char) : Char :=
  if 'a' ≤ c ∧ c ≤ 'z' then Char.ofNat (c.toNat - 32) else c

/-- Model of `s.toLowerCase()`. -/
def asciiLower (s : String) : String := ⟨s.data.map asciiLowerChar⟩

/-- Model of `s.toUpperCase()`. -/
def asciiUpper (s : String) : String := ⟨s.data.map asciiUpperChar⟩

/-- White-space recognizer used by the model of `s.trim()`. -/
def isWSChar (c : Char) : Bool := c = ' ' || c = '\t' || c = '\n' || c = '\r'

/-- Model of `s.trim()`: strip leading and trailing white space. -/
def trimStr (s : String) : String :=
  ⟨((s.data.dropWhile isWSChar).reverse.dropWhile isWSChar).reverse⟩

/-- Helper for `splitLines`, recursing over the character list. -/
def splitLinesAux : List Char → List Char → List String
  | [], acc => [⟨acc.reverse⟩]
  | c :: rest, acc =>
    if c = '\n' then ⟨acc.reverse⟩ :: splitLinesAux rest []
    else splitLinesAux rest (c :: acc)

/-- Model of `s.split('\n')`; like in JavaScript, `splitLines "" = [""]`. -/
def splitLines (s : String) : List String := splitLinesAux s.data []

/-- Model of `lines.join('\n')`. -/
def joinLines (ls : List String) : String := String.intercalate "\n" ls

/-- The name canonicalisation `s.toLowerCase().trim()` used for every
name-keyed join in the pipeline. -/
def normalizeName (s : String) : String := trimStr (asciiLower s)

/-! ## Stable sort (model of `Array.prototype.sort`, which is stable) -/

/-- Insert `a` after every already-placed element `b` with `le b a`; this is
the stable insertion step. -/
def insertLe {α : Type} (le : α → α → Bool) (a : α) : List α → List α
  | [] => [a]
  | b :: rest => if le b a then b :: insertLe le a rest else a :: b :: rest

/-- Stable sort by the boolean relation `le`: elements are processed in input
order and each is inserted after existing elements that compare `le` to it,
so equal elements keep their input order, as JavaScript's sort guarantees. -/
def stableSort {α : Type} (le : α → α → Bool) (l : List α) : List α :=
  l.foldl (fun acc a => insertLe le a acc) []

theorem insertLe_perm {α : Type} (le : α → α → Bool) (a : α) (l : List α) :
    (insertLe le a l).Perm (a :: l) := by
  induction l with
  | nil => simp [insertLe]
  | cons b rest ih =>
    simp only [insertLe]
    by_cases h : le b a
    · simp only [h, if_pos]
      exact ((ih.cons b).trans (List.Perm.swap a b rest))
    · simp [h]

theorem stableSort_perm {α : Type} (le : α → α → Bool) (l : List α) :
    (stableSort le l).Perm l := by
  suffices h : ∀ acc : List α,
      (l.foldl (fun acc a => insertLe le a acc) acc).Perm (acc ++ l) by
    simpa using h []
  induction l with
  | nil => simp
  | cons a rest ih =>
    intro acc
    simp only [List.foldl_cons]
    refine (ih (insertLe le a acc)).trans ?_
    have h1 : (insertLe le a acc ++ rest).Perm ((a :: acc) ++ rest) :=
      (insertLe_perm le a acc).append_right rest
    refine h1.trans ?_
    simp only [List.cons_append]
    exact (List.perm_middle).symm

theorem insertLe_sorted {α : Type} (le : α → α → Bool)
    (htrans : ∀ x y z, le x y → le y z → le x z)
    (htot : ∀ x y, le x y ∨ le y x)
    (a : α) (l : List α) (hl : l.Pairwise (fun x y => le x y)) :
    (insertLe le a l).Pairwise (fun x y => le x y) := by
  induction l with
  | nil => simp [insertLe]
  | cons b rest ih =>
    simp only [insertLe]
    rcases List.pairwise_cons.mp hl with ⟨hb, hrest⟩
    by_cases h : le b a
    · simp only [h, if_pos]
      refine List.pairwise_cons.mpr ⟨?_, ih hrest⟩
      intro x hx
      have hperm := insertLe_perm le a rest
      rcases List.mem_cons.mp ((hperm.mem_iff).mp hx) with hx' | hx'
      · subst hx'; exact h
      · exact hb x hx'
    · simp only [h, if_neg]
      have hab : le a b = true := by
        rcases htot a b with h' | h'
        · exact h'
        · exact absurd h' h
      refine List.pairwise_cons.mpr ⟨?_, hl⟩
      intro x hx
      rcases List.mem_cons.mp hx with hx' | hx'
      · subst hx'; exact hab
      · exact htrans a b x hab (hb x hx')

theorem stableSort_sorted {α : Type} (le : α → α → Bool)
    (htrans : ∀ x y z, le x y → le y z → le x z)
    (htot : ∀ x y, le x y ∨ le y x) (l : List α) :
    (stableSort le l).Pairwise (fun x y => le x y) := by
  suffices h : ∀ acc : List α, acc.Pairwise (fun x y => le x y) →
      (l.foldl (fun acc a => insertLe le a acc) acc).Pairwise
        (fun x y => le x y) by
    exact h [] (by simp)
  induction l with
  | nil => intro acc hacc; simpa using hacc
  | cons a rest ih =>
    intro acc hacc
    simp only [List.foldl_cons]
    exact ih (insertLe le a acc) (insertLe_sorted le htrans htot a acc hacc)

/-! ## ProgrammingLanguage registry (ProgrammingLanguage.ts) -/

/-- The `ProgrammingLanguage` enum, in its declaration order. -/
inductive ProgrammingLanguage where
  | JAVASCRIPT | JAVASCRIPT_JSX | TYPESCRIPT | TYPESCRIPT_TSX | PYTHON
  | PHP | JAVA | SCSS | HTML | CSHARP | GENERIC | GO | C | CPP | SQL
  | KOTLIN | VUE | CSS | YAML | JSON | XML | BASH | MARKDOWN | RUBY
  | RUST | SAP_ABAP | SAP_CDS | SAP_HANA_SQL | SWIFT | PROPERTIES | AVRO
deriving DecidableEq

namespace ProgrammingLanguage

/-- The string value each enum member carries (the member's own name). -/
def enumStr : ProgrammingLanguage → String
  | JAVASCRIPT => "JAVASCRIPT"
  | JAVASCRIPT_JSX => "JAVASCRIPT_JSX"
  | TYPESCRIPT => "TYPESCRIPT"
  | TYPESCRIPT_TSX => "TYPESCRIPT_TSX"
  | PYTHON => "PYTHON"
  | PHP => "PHP"
  | JAVA => "JAVA"
  | SCSS => "SCSS"
  | HTML => "HTML"
  | CSHARP => "CSHARP"
  | GENERIC => "GENERIC"
  | GO => "GO"
  | C => "C"
  | CPP => "CPP"
  | SQL => "SQL"
  | KOTLIN => "KOTLIN"
  | VUE => "VUE"
  | CSS => "CSS"
  | YAML => "YAML"
  | JSON => "JSON"
  | XML => "XML"
  | BASH => "BASH"
  | MARKDOWN => "MARKDOWN"
  | RUBY => "RUBY"
  | RUST => "RUST"
  | SAP_ABAP => "SAP_ABAP"
  | SAP_CDS => "SAP_CDS"
  | SAP_HANA_SQL => "SAP_HANA_SQL"
  | SWIFT => "SWIFT"
  | PROPERTIES => "PROPERTIES"
  | AVRO => "AVRO"

/-- `Object.values(ProgrammingLanguage)`: the enum members in declaration
order. -/
def enumValues : List ProgrammingLanguage :=
  [JAVASCRIPT, JAVASCRIPT_JSX, TYPESCRIPT, TYPESCRIPT_TSX, PYTHON, PHP, JAVA,
   SCSS, HTML, CSHARP, GENERIC, GO, C, CPP, SQL, KOTLIN, VUE, CSS, YAML, JSON,
   XML, BASH, MARKDOWN, RUBY, RUST, SAP_ABAP, SAP_CDS, SAP_HANA_SQL, SWIFT,
   PROPERTIES, AVRO]

/-- The `displayName` field of `ProgrammingLanguageDetails`. -/
def displayName : ProgrammingLanguage → String
  | GENERIC => "Generic"
  | JAVASCRIPT => "JavaScript"
  | JAVASCRIPT_JSX => "JavaScript (JSX)"
  | TYPESCRIPT => "TypeScript"
  | TYPESCRIPT_TSX => "TypeScript (TSX)"
  | PYTHON => "Python"
  | PHP => "PHP"
  | JAVA => "Java"
  | SCSS => "SCSS"
  | HTML => "HTML"
  | CSHARP => "C#"
  | GO => "Go"
  | C => "C"
  | CPP => "C++"
  | SQL => "SQL"
  | KOTLIN => "Kotlin"
  | VUE => "Vue"
  | CSS => "CSS"
  | YAML => "YAML"
  | JSON => "JSON"
  | XML => "XML"
  | BASH => "Bash"
  | MARKDOWN => "Markdown"
  | RUST => "Rust"
  | RUBY => "Ruby"
  | SAP_ABAP => "SAP ABAP"
  | SAP_CDS => "SAP CDS"
  | SAP_HANA_SQL => "SAP HANA SQL"
  | SWIFT => "Swift"
  | PROPERTIES => "Properties"
  | AVRO => "Avro"

/-- The `fileExtensions` field of `ProgrammingLanguageDetails`. -/
def fileExtensions : ProgrammingLanguage → List String
  | GENERIC => []
  | JAVASCRIPT => ["js"]
  | JAVASCRIPT_JSX => ["jsx"]
  | TYPESCRIPT => ["ts"]
  | TYPESCRIPT_TSX => ["tsx"]
  | PYTHON => ["py", "pyx", "pyw"]
  | PHP => ["php", "phtml"]
  | JAVA => ["java"]
  | SCSS => ["scss"]
  | HTML => ["html", "htm"]
  | CSHARP => ["cs"]
  | GO => ["go"]
  | C => ["c", "h"]
  | CPP => ["cpp", "cc", "cxx", "c++", "hpp", "hxx"]
  | SQL => ["sql"]
  | KOTLIN => ["kt", "kts"]
  | VUE => ["vue"]
  | CSS => ["css"]
  | YAML => ["yaml", "yml"]
  | JSON => ["json"]
  | XML => ["xml"]
  | BASH => ["sh", "bash"]
  | MARKDOWN => ["md"]
  | RUST => ["rs"]
  | RUBY => ["rb"]
  | SAP_ABAP => ["abap", "ab4"]
  | SAP_CDS => ["cds"]
  | SAP_HANA_SQL => ["hdbprocedure", "hdbfunction", "hdbview",
                     "hdbcalculationview"]
  | SWIFT => ["swift"]
  | PROPERTIES => ["properties"]
  | AVRO => ["avdl", "avsc", "avpr"]

/-- `Object.entries(ProgrammingLanguageDetails)`: the record-literal order of
`ProgrammingLanguageDetails` (GENERIC first, RUST before RUBY). -/
def detailsOrder : List ProgrammingLanguage :=
  [GENERIC, JAVASCRIPT, JAVASCRIPT_JSX, TYPESCRIPT, TYPESCRIPT_TSX, PYTHON,
   PHP, JAVA, SCSS, HTML, CSHARP, GO, C, CPP, SQL, KOTLIN, VUE, CSS, YAML,
   JSON, XML, BASH, MARKDOWN, RUST, RUBY, SAP_ABAP, SAP_CDS, SAP_HANA_SQL,
   SWIFT, PROPERTIES, AVRO]

end ProgrammingLanguage

/-- Failure values of `stringToProgrammingLanguage`: the function throws
`'Language input cannot be empty'` on empty input and
`'Unknown programming language: ...'` when no lookup stage matches. -/
inductive LangFailure where
  | emptyInput
  | unknownLanguage
deriving DecidableEq

/-- `stringToProgrammingLanguage` (ProgrammingLanguage.ts): trims, throws on
empty input, applies the `LANGUAGE_ALIASES` redirection on the upper-cased
input, then matches the lower-cased input against enum values, display names
and file extensions in that order; throws when nothing matches. -/
def stringToProgrammingLanguage (input : String) :
    Except LangFailure ProgrammingLanguage :=
  let trimmedInput := trimStr input
  if trimmedInput = "" then .error .emptyInput
  else if asciiUpper trimmedInput = "TYPESCRIPT_JSX" then
    .ok ProgrammingLanguage.TYPESCRIPT_TSX
  else
    let lowerInput := asciiLower trimmedInput
    match ProgrammingLanguage.enumValues.find?
        (fun l => asciiLower l.enumStr = lowerInput) with
    | some l => .ok l
    | none =>
      match ProgrammingLanguage.detailsOrder.find?
          (fun l => asciiLower l.displayName = lowerInput) with
      | some l => .ok l
      | none =>
        match ProgrammingLanguage.detailsOrder.find?
            (fun l => l.fileExtensions.any
              (fun ext => asciiLower ext = lowerInput)) with
        | some l => .ok l
        | none => .error .unknownLanguage

/-- `convertProgrammingLanguage` (PracticeToStandardConvertor.ts): resolve a
file extension to a language, falling back to `GENERIC` for empty and for
unknown extensions; it never throws. -/
def convertProgrammingLanguage (ext : String) : ProgrammingLanguage :=
  if ext = "" ∨ trimStr ext = "" then ProgrammingLanguage.GENERIC
  else
    let lowerExtension := asciiLower (trimStr ext)
    match ProgrammingLanguage.detailsOrder.find?
        (fun l => l.fileExtensions.any
          (fun e => asciiLower e = lowerExtension)) with
    | some l => l
    | none => ProgrammingLanguage.GENERIC

/-- Claim C2, as stated: every non-empty input resolves to a language without
error, and the empty (or whitespace-only) input is the only one that errors.
This is false on both sides: `stringToProgrammingLanguage` throws on the
non-empty input `"zzz"`, and `convertProgrammingLanguage` returns `GENERIC`
(it does not error) on the empty input. -/
theorem claim_C2_counterexample :
    stringToProgrammingLanguage "zzz" = .error LangFailure.unknownLanguage
      ∧ trimStr "zzz" ≠ ""
      ∧ convertProgrammingLanguage "" = ProgrammingLanguage.GENERIC := by
  refine ⟨rfl, by decide, by decide⟩

/-- Claim C2, amended: extension resolution `convertProgrammingLanguage` is
total on all inputs, empty included — it yields `GENERIC` for the empty
string and for any string matching no file extension, and whenever it yields
a non-`GENERIC` language the trimmed lower-cased input is one of that
language's file extensions.  `stringToProgrammingLanguage`, by contrast,
fails on the empty input and on every input matching no alias, enum value,
display name, or file extension — the empty string is not the only erroring
input — and its `emptyInput` failure happens exactly on whitespace-only
inputs. -/
theorem claim_C2_amended :
    (∀ s : String, convertProgrammingLanguage s = ProgrammingLanguage.GENERIC
        ∨ (convertProgrammingLanguage s).fileExtensions.any
            (fun e => asciiLower e = asciiLower (trimStr s)) = true)
      ∧ convertProgrammingLanguage "" = ProgrammingLanguage.GENERIC
      ∧ (∀ s : String,
          stringToProgrammingLanguage s = .error LangFailure.emptyInput
            ↔ trimStr s = "")
      ∧ stringToProgrammingLanguage "zzz"
          = .error LangFailure.unknownLanguage := by
  refine ⟨?_, by decide, ?_, rfl⟩
  · intro s
    unfold convertProgrammingLanguage
    by_cases h : s = "" ∨ trimStr s = ""
    · simp [h]
    · simp only [h, if_neg, if_false]
      rcases hfind : ProgrammingLanguage.detailsOrder.find?
          (fun l => l.fileExtensions.any
            (fun e => asciiLower e = asciiLower (trimStr s))) with _ | l
      · left; simp [h, hfind]
      · right
        have := List.find?_some hfind
        simpa [h, hfind] using this
  · intro s
    unfold stringToProgrammingLanguage
    by_cases h : trimStr s = ""
    · simp [h]
    · simp only [h, if_neg, if_false]
      constructor
      · intro hcontra
        by_cases halias : asciiUpper (trimStr s) = "TYPESCRIPT_JSX"
        · simp [halias] at hcontra
        · simp only [halias, if_neg, if_false] at hcontra
          rcases h1 : ProgrammingLanguage.enumValues.find?
              (fun l => asciiLower l.enumStr = asciiLower (trimStr s)) with
            _ | l
          · rcases h2 : ProgrammingLanguage.detailsOrder.find?
                (fun l => asciiLower l.displayName = asciiLower (trimStr s))
              with _ | l
            · rcases h3 : ProgrammingLanguage.detailsOrder.find?
                  (fun l => l.fileExtensions.any
                    (fun ext => asciiLower ext = asciiLower (trimStr s)))
                with _ | l
              · simp [h1, h2, h3] at hcontra
              · simp [h1, h2, h3] at hcontra
            · simp [h1, h2] at hcontra
          · simp [h1] at hcontra
      · intro hcontra
        exact hcontra.elim

/-! ## File snapshots and context extraction (PracticeToStandardConvertor.ts) -/

/-- One `(line, content)` entry of a file snapshot (`FileContent`). -/
structure FileContent where
  line : Int
  content : String
deriving DecidableEq

/-- An example's `position` (`begin.line` / `end.line`; `begin` and `end` are
Lean keywords, hence the field names). -/
structure Position where
  beginLine : Int
  endLine : Int
deriving DecidableEq

/-- The `fileWorkshop` record attached to an example. -/
structure FileWorkshop where
  contents : List FileContent
  lang : Option String
  path : Option String
deriving DecidableEq

/-- A practice `Example`. -/
structure Example where
  position : Position
  isPositive : Bool
  description : Option String
  fileWorkshop : Option FileWorkshop
deriving DecidableEq

/-- `Math.min(...contents.map(c => c.line))`; the `[]` case is the source's
`Infinity` and is never reached (callers guarantee a non-empty snapshot). -/
def minLineOf : List FileContent → Int
  | [] => 0
  | c :: rest => rest.foldl (fun m x => min m x.line) c.line

/-- `Math.max(...contents.map(c => c.line))`; same remark on `[]`. -/
def maxLineOf : List FileContent → Int
  | [] => 0
  | c :: rest => rest.foldl (fun m x => max m x.line) c.line

/-- `getLineRange`: keep the contents whose line number is in the inclusive
range, sort them ascending by line number (stable, as `Array.sort` is), and
join their text with newlines. -/
def getLineRange (contents : List FileContent) (startLine stopLine : Int) :
    String :=
  joinLines
    (((contents.filter
          (fun c => decide (startLine ≤ c.line) && decide (c.line ≤ stopLine)))
        |> stableSort (fun a b => decide (a.line ≤ b.line))
      ).map (fun c => c.content))

/-- `extractCodeWithContext`: pad the example's line range by `contextLines`
on both sides, clamp to the snapshot's min/max line, and extract.  Reading
`example.fileWorkshop.contents` on a record without a `fileWorkshop` would be
a runtime type error in the source; callers guard it, and the model defaults
to the empty snapshot. -/
def extractCodeWithContext (contextLines : Int) (ex : Example) : String :=
  let contents := (ex.fileWorkshop.map FileWorkshop.contents).getD []
  let beginLine := ex.position.beginLine
  let endLine := ex.position.endLine
  let minLine := minLineOf contents
  let maxLine := maxLineOf contents
  let startLine := max minLine (beginLine - contextLines)
  let stopLine := min maxLine (endLine + contextLines)
  getLineRange contents startLine stopLine

theorem foldl_min_bounds (ls : List Int) (i : Int) :
    ls.foldl min i ≤ i ∧ ∀ x ∈ ls, ls.foldl min i ≤ x := by
  induction ls generalizing i with
  | nil => simp
  | cons a rest ih =>
    simp only [List.foldl_cons]
    rcases ih (min i a) with ⟨h1, h2⟩
    refine ⟨le_trans h1 (min_le_left _ _), ?_⟩
    intro x hx
    rcases List.mem_cons.mp hx with hx' | hx'
    · subst hx'; exact le_trans h1 (min_le_right _ _)
    · exact h2 x hx'

theorem foldl_min_mem (ls : List Int) (i : Int) :
    ls.foldl min i = i ∨ ls.foldl min i ∈ ls := by
  induction ls generalizing i with
  | nil => simp
  | cons a rest ih =>
    simp only [List.foldl_cons]
    rcases ih (min i a) with h | h
    · rcases min_cases i a with ⟨hmin, _⟩ | ⟨hmin, _⟩
      · exact Or.inl (h.trans hmin)
      · exact Or.inr (by rw [h, hmin]; exact List.mem_cons_self a rest)
    · exact Or.inr (List.mem_cons_of_mem a h)

theorem foldl_max_bounds (ls : List Int) (i : Int) :
    i ≤ ls.foldl max i ∧ ∀ x ∈ ls, x ≤ ls.foldl max i := by
  induction ls generalizing i with
  | nil => simp
  | cons a rest ih =>
    simp only [List.foldl_cons]
    rcases ih (max i a) with ⟨h1, h2⟩
    refine ⟨le_trans (le_max_left _ _) h1, ?_⟩
    intro x hx
    rcases List.mem_cons.mp hx with hx' | hx'
    · subst hx'; exact le_trans (le_max_right _ _) h1
    · exact h2 x hx'

theorem foldl_max_mem (ls : List Int) (i : Int) :
    ls.foldl max i = i ∨ ls.foldl max i ∈ ls := by
  induction ls generalizing i with
  | nil => simp
  | cons a rest ih =>
    simp only [List.foldl_cons]
    rcases ih (max i a) with h | h
    · rcases max_cases i a with ⟨hmax, _⟩ | ⟨hmax, _⟩
      · exact Or.inl (h.trans hmax)
      · exact Or.inr (by rw [h, hmax]; exact List.mem_cons_self a rest)
    · exact Or.inr (List.mem_cons_of_mem a h)

theorem minLineOf_cons (c : FileContent) (rest : List FileContent) :
    minLineOf (c :: rest) = (rest.map FileContent.line).foldl min c.line := by
  rw [List.foldl_map]
  rfl

theorem maxLineOf_cons (c : FileContent) (rest : List FileContent) :
    maxLineOf (c :: rest) = (rest.map FileContent.line).foldl max c.line := by
  rw [List.foldl_map]
  rfl

theorem minLineOf_le (cs : List FileContent) (x : FileContent) (hx : x ∈ cs) :
    minLineOf cs ≤ x.line := by
  cases cs with
  | nil => cases hx
  | cons c rest =>
    rw [minLineOf_cons]
    rcases List.mem_cons.mp hx with h | h
    · subst h
      exact (foldl_min_bounds _ _).1
    · exact (foldl_min_bounds (rest.map FileContent.line) c.line).2 x.line
        (List.mem_map_of_mem FileContent.line h)

theorem le_maxLineOf (cs : List FileContent) (x : FileContent) (hx : x ∈ cs) :
    x.line ≤ maxLineOf cs := by
  cases cs with
  | nil => cases hx
  | cons c rest =>
    rw [maxLineOf_cons]
    rcases List.mem_cons.mp hx with h | h
    · subst h
      exact (foldl_max_bounds _ _).1
    · exact (foldl_max_bounds (rest.map FileContent.line) c.line).2 x.line
        (List.mem_map_of_mem FileContent.line h)

theorem minLineOf_mem (cs : List FileContent) (hne : cs ≠ []) :
    minLineOf cs ∈ cs.map FileContent.line := by
  cases cs with
  | nil => exact absurd rfl hne
  | cons c rest =>
    rw [minLineOf_cons]
    rcases foldl_min_mem (rest.map FileContent.line) c.line with h | h
    · rw [h]; exact List.mem_cons_self _ _
    · exact List.mem_cons_of_mem _ h

theorem maxLineOf_mem (cs : List FileContent) (hne : cs ≠ []) :
    maxLineOf cs ∈ cs.map FileContent.line := by
  cases cs with
  | nil => exact absurd rfl hne
  | cons c rest =>
    rw [maxLineOf_cons]
    rcases foldl_max_mem (rest.map FileContent.line) c.line with h | h
    · rw [h]; exact List.mem_cons_self _ _
    · exact List.mem_cons_of_mem _ h

theorem minLineOf_perm {cs cs' : List FileContent} (h : cs.Perm cs')
    (hne : cs ≠ []) : minLineOf cs = minLineOf cs' := by
  have hne' : cs' ≠ [] := by
    intro hnil; subst hnil
    exact hne h.eq_nil
  have h1 := minLineOf_mem cs hne
  have h2 := minLineOf_mem cs' hne'
  rcases List.mem_map.mp h1 with ⟨x, hx, hxline⟩
  rcases List.mem_map.mp h2 with ⟨y, hy, hyline⟩
  refine le_antisymm ?_ ?_
  · rw [← hyline]
    exact minLineOf_le cs y (h.symm.subset hy)
  · rw [← hxline]
    exact minLineOf_le cs' x (h.subset hx)

theorem maxLineOf_perm {cs cs' : List FileContent} (h : cs.Perm cs')
    (hne : cs ≠ []) : maxLineOf cs = maxLineOf cs' := by
  have hne' : cs' ≠ [] := by
    intro hnil; subst hnil
    exact hne h.eq_nil
  have h1 := maxLineOf_mem cs hne
  have h2 := maxLineOf_mem cs' hne'
  rcases List.mem_map.mp h1 with ⟨x, hx, hxline⟩
  rcases List.mem_map.mp h2 with ⟨y, hy, hyline⟩
  refine le_antisymm ?_ ?_
  · rw [← hxline]
    exact le_maxLineOf cs' x (h.subset hx)
  · rw [← hyline]
    exact le_maxLineOf cs y (h.symm.subset hy)

theorem fileContentLe_trans (x y z : FileContent)
    (h1 : decide (x.line ≤ y.line) = true)
    (h2 : decide (y.line ≤ z.line) = true) :
    decide (x.line ≤ z.line) = true := by
  simp only [decide_eq_true_eq] at *
  exact le_trans h1 h2

theorem fileContentLe_total (x y : FileContent) :
    decide (x.line ≤ y.line) = true ∨ decide (y.line ≤ x.line) = true := by
  simp only [decide_eq_true_eq]
  exact le_total x.line y.line

theorem stableSort_eq_of_perm_nodupLines (l l' : List FileContent)
    (hperm : l.Perm l') (hnodup : (l.map FileContent.line).Nodup) :
    stableSort (fun a b => decide (a.line ≤ b.line)) l
      = stableSort (fun a b => decide (a.line ≤ b.line)) l' := by
  set le := fun a b : FileContent => decide (a.line ≤ b.line) with hle
  have hsortperm : (stableSort le l).Perm (stableSort le l') :=
    ((stableSort_perm le l).trans hperm).trans (stableSort_perm le l').symm
  have hs1 : (stableSort le l).Pairwise (fun a b => le a b = true) :=
    stableSort_sorted le fileContentLe_trans fileContentLe_total l
  have hs2 : (stableSort le l').Pairwise (fun a b => le a b = true) :=
    stableSort_sorted le fileContentLe_trans fileContentLe_total l'
  have hnodup1 : ((stableSort le l).map FileContent.line).Nodup :=
    ((stableSort_perm le l).map FileContent.line).nodup_iff.mpr hnodup
  have hnodup' : (l'.map FileContent.line).Nodup :=
    (hperm.map FileContent.line).nodup_iff.mp hnodup
  have hnodup2 : ((stableSort le l').map FileContent.line).Nodup :=
    ((stableSort_perm le l').map FileContent.line).nodup_iff.mpr hnodup'
  have hne1 : (stableSort le l).Pairwise (fun a b => a.line ≠ b.line) :=
    (List.pairwise_map).mp hnodup1
  have hne2 : (stableSort le l').Pairwise (fun a b => a.line ≠ b.line) :=
    (List.pairwise_map).mp hnodup2
  have hlt1 : (stableSort le l).Pairwise (fun a b => a.line < b.line) :=
    (hs1.and hne1).imp (fun h => lt_of_le_of_ne (by
      have := h.1
      simpa [hle] using this) h.2)
  have hlt2 : (stableSort le l').Pairwise (fun a b => a.line < b.line) :=
    (hs2.and hne2).imp (fun h => lt_of_le_of_ne (by
      have := h.1
      simpa [hle] using this) h.2)
  haveI : IsAntisymm FileContent (fun a b => a.line < b.line) :=
    ⟨fun a b h1 h2 => absurd h2 (lt_asymm h1)⟩
  have hlt1s : List.Sorted (fun a b : FileContent => a.line < b.line)
      (stableSort le l) := hlt1
  have hlt2s : List.Sorted (fun a b : FileContent => a.line < b.line)
      (stableSort le l') := hlt2
  exact List.eq_of_perm_of_sorted hsortperm hlt1s hlt2s

/-- Snapshot with a duplicated line number, in one storage order. -/
def c4snapshotA : List FileContent := [⟨1, "a"⟩, ⟨1, "b"⟩]

/-- The same bag of `(line, content)` pairs in the other storage order. -/
def c4snapshotB : List FileContent := [⟨1, "b"⟩, ⟨1, "a"⟩]

/-- Example over `c4snapshotA`, selecting line 1 with no padding. -/
def c4exampleA : Example := ⟨⟨1, 1⟩, true, none, some ⟨c4snapshotA, none, none⟩⟩

/-- Example over `c4snapshotB`, selecting line 1 with no padding. -/
def c4exampleB : Example := ⟨⟨1, 1⟩, true, none, some ⟨c4snapshotB, none, none⟩⟩

/-- Claim C4, as stated, is false: the extracted text is not independent of
the snapshot's storage order when two entries carry the same line number —
a legal bag of `(line, content)` pairs.  The two snapshots here are
permutations of one another, yet extraction (stable sort) returns the two
contents in storage order. -/
theorem claim_C4_counterexample :
    c4snapshotA.Perm c4snapshotB
      ∧ extractCodeWithContext 0 c4exampleA = "a\nb"
      ∧ extractCodeWithContext 0 c4exampleB = "b\na" := by
  refine ⟨List.Perm.swap _ _ _, by decide, by decide⟩

/-- Claim C4, amended: for non-empty snapshots whose line numbers are
pairwise distinct (the data model's mapping from line number to content),
extraction returns exactly the snapshot lines whose line number lies in
`[max(minLine, beginLine - padding), min(maxLine, endLine + padding)]`,
sorted ascending by line number and joined with newline, and the result is
independent of the snapshot's storage order.  With duplicated line numbers
the storage order of the duplicates shows through (see the
counterexample). -/
theorem claim_C4_amended (cs cs' : List FileContent) (b e p : Int)
    (lang path : Option String) (isPos : Bool) (descr : Option String)
    (hne : cs ≠ []) (hnodup : (cs.map FileContent.line).Nodup)
    (hperm : cs.Perm cs') :
    extractCodeWithContext p ⟨⟨b, e⟩, isPos, descr, some ⟨cs, lang, path⟩⟩
        = extractCodeWithContext p
            ⟨⟨b, e⟩, isPos, descr, some ⟨cs', lang, path⟩⟩
      ∧ ∃ sel : List FileContent,
          extractCodeWithContext p ⟨⟨b, e⟩, isPos, descr, some ⟨cs, lang, path⟩⟩
              = joinLines (sel.map (fun c => c.content))
            ∧ (∀ x : FileContent, x ∈ sel ↔ x ∈ cs
                ∧ max (minLineOf cs) (b - p) ≤ x.line
                ∧ x.line ≤ min (maxLineOf cs) (e + p))
            ∧ sel.Pairwise (fun a b => a.line ≤ b.line) := by
  have hmineq := minLineOf_perm hperm hne
  have hmaxeq := maxLineOf_perm hperm hne
  refine ⟨?_, ?_⟩
  · show getLineRange cs (max (minLineOf cs) (b - p))
          (min (maxLineOf cs) (e + p))
        = getLineRange cs' (max (minLineOf cs') (b - p))
          (min (maxLineOf cs') (e + p))
    rw [← hmineq, ← hmaxeq]
    unfold getLineRange
    congr 1
    congr 1
    apply stableSort_eq_of_perm_nodupLines
    · exact hperm.filter _
    · have hsub : ((cs.filter (fun c =>
            decide (max (minLineOf cs) (b - p) ≤ c.line)
              && decide (c.line ≤ min (maxLineOf cs) (e + p)))).map
            FileContent.line).Sublist (cs.map FileContent.line) :=
        (List.filter_sublist cs).map FileContent.line
      exact hnodup.sublist hsub
  · refine ⟨stableSort (fun a b => decide (a.line ≤ b.line))
        (cs.filter (fun c => decide (max (minLineOf cs) (b - p) ≤ c.line)
          && decide (c.line ≤ min (maxLineOf cs) (e + p)))), rfl, ?_, ?_⟩
    · intro x
      rw [(stableSort_perm _ _).mem_iff, List.mem_filter]
      simp
    · exact (stableSort_sorted _ fileContentLe_trans fileContentLe_total
        _).imp (fun h => by simpa using h)
/-- Witness for claim C4 (amended) at a concrete snapshot stored in reverse
line order: its permutation into ascending order extracts the same text. -/
theorem claim_C4_amended_witness :
    ([⟨2, "b"⟩, ⟨1, "a"⟩] : List FileContent) ≠ []
      ∧ (([⟨2, "b"⟩, ⟨1, "a"⟩] : List FileContent).map FileContent.line).Nodup
      ∧ ([⟨2, "b"⟩, ⟨1, "a"⟩] : List FileContent).Perm [⟨1, "a"⟩, ⟨2, "b"⟩]
      ∧ extractCodeWithContext 0
            ⟨⟨1, 2⟩, true, none, some ⟨[⟨2, "b"⟩, ⟨1, "a"⟩], none, none⟩⟩
          = extractCodeWithContext 0
            ⟨⟨1, 2⟩, true, none, some ⟨[⟨1, "a"⟩, ⟨2, "b"⟩], none, none⟩⟩ :=
  ⟨by decide, by decide, List.Perm.swap _ _ _,
    (claim_C4_amended [⟨2, "b"⟩, ⟨1, "a"⟩] [⟨1, "a"⟩, ⟨2, "b"⟩] 1 2 0 none none
      true none (by decide) (by decide) (List.Perm.swap _ _ _)).1⟩

/-! ## Comment styles and comment injection (PracticeToStandardConvertor.ts) -/

/-- Comment style of a language.  Source field names: `prefix` (here `pre`,
since `prefix` is a Lean keyword) and the optional `suffix` (here `suf`). -/
structure CommentStyle where
  pre : String
  suf : Option String
deriving DecidableEq

namespace CommentStyle

/-- The `slashSlashLanguages` list of `getCommentStyleForLanguage`. -/
def slashSlashLanguages : List ProgrammingLanguage :=
  [.JAVASCRIPT, .JAVASCRIPT_JSX, .TYPESCRIPT, .TYPESCRIPT_TSX, .PHP, .JAVA,
   .CSHARP, .GO, .C, .CPP, .KOTLIN, .SCSS, .CSS, .RUST, .SWIFT, .SAP_CDS,
   .VUE, .GENERIC]

/-- The `hashLanguages` list. -/
def hashLanguages : List ProgrammingLanguage :=
  [.PYTHON, .YAML, .BASH, .RUBY, .PROPERTIES]

/-- The `doubleDashLanguages` list. -/
def doubleDashLanguages : List ProgrammingLanguage := [.SQL, .SAP_HANA_SQL]

/-- The `htmlStyleLanguages` list. -/
def htmlStyleLanguages : List ProgrammingLanguage := [.HTML, .XML, .MARKDOWN]

/-- The `asteriskLanguages` list. -/
def asteriskLanguages : List ProgrammingLanguage := [.SAP_ABAP]

/-- The `noCommentLanguages` list. -/
def noCommentLanguages : List ProgrammingLanguage := [.JSON]

end CommentStyle

/-- Membership test `list.includes(language as ProgrammingLanguage)`: the
string input is compared against the string values of the enum members. -/
def inLanguageList (ls : List ProgrammingLanguage) (language : String) :
    Bool :=
  (ls.map ProgrammingLanguage.enumStr).contains language

/-- `getCommentStyleForLanguage`: map a `ProgrammingLanguage` string value to
its comment style; `none` for JSON (no comment support), `//` by default for
unknown strings. -/
def getCommentStyleForLanguage (language : String) : Option CommentStyle :=
  if inLanguageList CommentStyle.slashSlashLanguages language then
    some ⟨"//", none⟩
  else if inLanguageList CommentStyle.hashLanguages language then
    some ⟨"#", none⟩
  else if inLanguageList CommentStyle.doubleDashLanguages language then
    some ⟨"--", none⟩
  else if inLanguageList CommentStyle.htmlStyleLanguages language then
    some ⟨"<!--", some "-->"⟩
  else if inLanguageList CommentStyle.asteriskLanguages language then
    some ⟨"*", none⟩
  else if inLanguageList CommentStyle.noCommentLanguages language then
    none
  else some ⟨"//", none⟩

/-- Per-line rendering of a description line under a comment style: a
prefix-only style prepends `pre` and a space; a prefix+suffix style wraps the
line with `pre` and `suf` individually. -/
def commentLine (st : CommentStyle) (line : String) : String :=
  match st.suf with
  | some suf => st.pre ++ " " ++ line ++ " " ++ suf
  | none => st.pre ++ " " ++ line

/-- `addDescriptionAsCommentForLanguage`: prepend the description to the code
as a comment, line for line; a no-op when the description is empty or
whitespace-only, or when the language has no comment style. -/
def addDescriptionAsCommentForLanguage
    (code description programmingLanguage : String) : String :=
  if description = "" ∨ trimStr description = "" then code
  else
    match getCommentStyleForLanguage programmingLanguage with
    | none => code
    | some commentStyle =>
      joinLines ((splitLines description).map (commentLine commentStyle))
        ++ "
" ++ code

theorem append_newline_ne (x y : String) : x ++ "\n" ++ y ≠ y := by
  intro h
  have hlen := congrArg String.length h
  rw [String.length_append, String.length_append] at hlen
  have : ("\n" : String).length = 1 := rfl
  omega

/-- Claim C5: comment injection returns the code unchanged exactly when the
description is empty or whitespace-only or the language's comment style is
null; otherwise the output is the description rendered line by line under
the style (each line prefixed, or individually wrapped with prefix and
suffix), followed by a newline and the original code. -/
theorem claim_C5 (code description lang : String) :
    (addDescriptionAsCommentForLanguage code description lang = code
        ↔ (trimStr description = "" ∨ getCommentStyleForLanguage lang = none))
      ∧ (∀ st : CommentStyle, trimStr description ≠ "" →
          getCommentStyleForLanguage lang = some st →
          addDescriptionAsCommentForLanguage code description lang =
            joinLines ((splitLines description).map (commentLine st))
              ++ "\n" ++ code) := by
  have hempty : description = "" → trimStr description = "" := by
    intro h; subst h; rfl
  constructor
  · constructor
    · intro heq
      by_cases h1 : trimStr description = ""
      · exact Or.inl h1
      · rcases h2 : getCommentStyleForLanguage lang with _ | st
        · exact Or.inr rfl
        · exfalso
          have : addDescriptionAsCommentForLanguage code description lang =
              joinLines ((splitLines description).map (commentLine st))
                ++ "\n" ++ code := by
            unfold addDescriptionAsCommentForLanguage
            have hcond : ¬ (description = "" ∨ trimStr description = "") := by
              rintro (h | h)
              · exact h1 (hempty h)
              · exact h1 h
            simp [hcond, h2]
          rw [this] at heq
          exact append_newline_ne _ _ heq
    · intro h
      unfold addDescriptionAsCommentForLanguage
      rcases h with h | h
      · simp [h]
      · by_cases h1 : description = "" ∨ trimStr description = ""
        · simp [h1]
        · simp [h1, h]
  · intro st h1 h2
    unfold addDescriptionAsCommentForLanguage
    have hcond : ¬ (description = "" ∨ trimStr description = "") := by
      rintro (h | h)
      · exact h1 (hempty h)
      · exact h1 h
    simp [hcond, h2]

/-- Witness for claim C5 at a concrete input: injecting the description "d"
into HTML code wraps the single line with the block-comment pair. -/
theorem claim_C5_witness :
    addDescriptionAsCommentForLanguage "x" "d" "HTML" = "<!-- d -->\nx" := by
  have h := (claim_C5 "x" "d" "HTML").2 ⟨"<!--", some "-->"⟩
    (by decide) (by decide)
  exact h.trans (by decide)

/-! ## Practices and the practice-to-rule convertor -/

/-- A detection unit test (`DetectionUnitTest`): only the fields the
convertor reads. -/
structure DetectionUnitTest where
  description : Option String
  code : String
  isCompliant : Bool
deriving DecidableEq

/-- The detection tooling record (`Toolings`): only the fields the pipeline
reads.  A JSON-absent string field behaves exactly like `""` through the
falsiness checks and comparisons applied to it, so both are modelled as
`""`. -/
structure Toolings where
  status : String
  program : String
  programDescription : String
  language : String
deriving DecidableEq

/-- A parsed legacy practice (`ParsedPractice`).  The unused optional
`guidelines` payload is omitted; `suggestionsDisabled` keeps its three
JavaScript states (absent / `false` / `true`). -/
structure ParsedPractice where
  name : String
  description : String
  categories : List String
  examples : List Example
  space : String
  suggestionsDisabled : Option Bool
  detectionUnitTests : Option (List DetectionUnitTest)
  toolings : Option Toolings
deriving DecidableEq

/-- A converted example (`ValidatedExample`): code plus the resolved
language (always a `ProgrammingLanguage` enum value in the source). -/
structure ValidatedExample where
  code : String
  language : ProgrammingLanguage
deriving DecidableEq

/-- A converted detection program (`DetectionProgram`); its `language` is a
raw string taken from the tooling record (or the AVRO enum value). -/
structure DetectionProgram where
  code : String
  description : String
  language : String
deriving DecidableEq

/-- A converted rule (`ValidatedRule`). -/
structure ValidatedRule where
  name : String
  positiveExamples : List ValidatedExample
  negativeExamples : List ValidatedExample
  detectionProgram : Option DetectionProgram
deriving DecidableEq

/-- `shouldIncludeDetection`: detection is eligible when
`suggestionsDisabled` is not truthy, a tooling record is present, and its
status is the literal string `"SUCCESS"`. -/
def shouldIncludeDetection (practice : ParsedPractice) : Bool :=
  if practice.suggestionsDisabled = some true then false
  else
    match practice.toolings with
    | none => false
    | some t => t.status = "SUCCESS"

/-- `convertUnitTestToExample`: resolve the inferred language, and prepend
the unit test's trimmed description as a comment when it is non-empty. -/
def convertUnitTestToExample (test : DetectionUnitTest) (language : String) :
    ValidatedExample :=
  let programmingLanguage := convertProgrammingLanguage language
  let trimmedDescription := (test.description.map trimStr).getD ""
  let code :=
    if trimmedDescription ≠ "" then
      addDescriptionAsCommentForLanguage test.code trimmedDescription
        programmingLanguage.enumStr
    else test.code
  { code := code, language := programmingLanguage }

/-- The list `practice.examples.map(ex => ex.fileWorkshop?.lang)` with falsy
entries (absent workshop, absent tag, empty tag) filtered out; shared by
`inferLanguage` and `areAllExamplesAvro`. -/
def truthyLangs (practice : ParsedPractice) : List String :=
  practice.examples.filterMap (fun ex =>
    match ex.fileWorkshop with
    | none => none
    | some fw =>
      match fw.lang with
      | none => none
      | some l => if l = "" then none else some l)

/-- One step of the `langCount` frequency map: a JavaScript `Map` keeps the
first-insertion position of a key and updates its value in place. -/
def mapIncr (m : List (String × Nat)) (l : String) : List (String × Nat) :=
  match m with
  | [] => [(l, 1)]
  | (k, v) :: rest =>
    if k = l then (k, v + 1) :: rest else (k, v) :: mapIncr rest l

/-- `inferLanguage`: most frequent language tag among the file examples,
ties broken by first-encountered order (the count entries are in
first-insertion order and the sort by descending count is stable);
`"unknown"` when no example carries a tag. -/
def inferLanguage (practice : ParsedPractice) : String :=
  let languages := truthyLangs practice
  if languages = [] then "unknown"
  else
    let langCount := languages.foldl mapIncr []
    match (stableSort (fun a b => decide (b.2 ≤ a.2)) langCount).head? with
    | some e => e.1
    | none => "unknown"

/-- The `avroExtensions` list of `areAllExamplesAvro`. -/
def avroExtensions : List String := ["avdl", "avsc", "avpr"]

/-- `areAllExamplesAvro`: true when there is at least one tagged file
example and every tag, lower-cased, is one of the three Avro extensions. -/
def areAllExamplesAvro (practice : ParsedPractice) : Bool :=
  let languages := (truthyLangs practice).map asciiLower
  if languages = [] then false
  else languages.all (fun lang => avroExtensions.contains lang)

/-- `convertFileWorkshopExample`: extract the padded code window and resolve
the snapshot's language tag with the generic fallback. -/
def convertFileWorkshopExample (contextLines : Int) (ex : Example) :
    ValidatedExample :=
  { code := extractCodeWithContext contextLines ex,
    language := convertProgrammingLanguage
      ((ex.fileWorkshop.bind FileWorkshop.lang).getD "") }

/-- `convertPracticeToRule`: unit tests are converted only when detection is
eligible; file-workshop examples (those with a snapshot) are always
converted; the detection program is attached when detection is eligible and
the tooling's program text is truthy, with the Avro language override. -/
def convertPracticeToRule (contextLines : Int) (practice : ParsedPractice) :
    ValidatedRule :=
  let includeDetection := shouldIncludeDetection practice
  let inferredLanguage := inferLanguage practice
  let unitTests :=
    if includeDetection then practice.detectionUnitTests.getD [] else []
  let positiveExamples :=
    ((unitTests.filter (fun t => t.isCompliant)).map
        (fun t => convertUnitTestToExample t inferredLanguage))
      ++ ((practice.examples.filter
            (fun ex => ex.fileWorkshop.isSome && ex.isPositive)).map
          (convertFileWorkshopExample contextLines))
  let negativeExamples :=
    ((unitTests.filter (fun t => !t.isCompliant)).map
        (fun t => convertUnitTestToExample t inferredLanguage))
      ++ ((practice.examples.filter
            (fun ex => ex.fileWorkshop.isSome && !ex.isPositive)).map
          (convertFileWorkshopExample contextLines))
  let detectionProgram :=
    match practice.toolings with
    | none => none
    | some t =>
      if includeDetection ∧ t.program ≠ "" then
        some { code := t.program,
               description := t.programDescription,
               language :=
                 if areAllExamplesAvro practice then
                   ProgrammingLanguage.AVRO.enumStr
                 else t.language }
      else none
  { name := practice.name,
    positiveExamples := positiveExamples,
    negativeExamples := negativeExamples,
    detectionProgram := detectionProgram }

theorem convertPracticeToRule_detectionProgram (contextLines : Int)
    (p : ParsedPractice) :
    (convertPracticeToRule contextLines p).detectionProgram
      = match p.toolings with
        | none => none
        | some t =>
          if shouldIncludeDetection p ∧ t.program ≠ "" then
            some ⟨t.program, t.programDescription,
              if areAllExamplesAvro p then ProgrammingLanguage.AVRO.enumStr
              else t.language⟩
          else none := rfl

theorem convertPracticeToRule_detectionProgram_none (contextLines : Int)
    (p : ParsedPractice) (ht : p.toolings = none) :
    (convertPracticeToRule contextLines p).detectionProgram = none := by
  rw [convertPracticeToRule_detectionProgram, ht]

theorem convertPracticeToRule_detectionProgram_some (contextLines : Int)
    (p : ParsedPractice) (t : Toolings) (ht : p.toolings = some t) :
    (convertPracticeToRule contextLines p).detectionProgram
      = if shouldIncludeDetection p ∧ t.program ≠ "" then
          some ⟨t.program, t.programDescription,
            if areAllExamplesAvro p then ProgrammingLanguage.AVRO.enumStr
            else t.language⟩
        else none := by
  rw [convertPracticeToRule_detectionProgram, ht]

theorem convertPracticeToRule_positiveExamples (contextLines : Int)
    (p : ParsedPractice) :
    (convertPracticeToRule contextLines p).positiveExamples
      = (((if shouldIncludeDetection p then p.detectionUnitTests.getD []
            else []).filter (fun t => t.isCompliant)).map
          (fun t => convertUnitTestToExample t (inferLanguage p)))
        ++ ((p.examples.filter
              (fun ex => ex.fileWorkshop.isSome && ex.isPositive)).map
            (convertFileWorkshopExample contextLines)) := rfl

theorem convertPracticeToRule_negativeExamples (contextLines : Int)
    (p : ParsedPractice) :
    (convertPracticeToRule contextLines p).negativeExamples
      = (((if shouldIncludeDetection p then p.detectionUnitTests.getD []
            else []).filter (fun t => !t.isCompliant)).map
          (fun t => convertUnitTestToExample t (inferLanguage p)))
        ++ ((p.examples.filter
              (fun ex => ex.fileWorkshop.isSome && !ex.isPositive)).map
            (convertFileWorkshopExample contextLines)) := rfl

/-- A practice whose tooling is successful and suggestions are enabled, but
whose tooling carries no program text. -/
def practiceC3 : ParsedPractice :=
  { name := "P", description := "", categories := [], examples := [],
    space := "s", suggestionsDisabled := some false,
    detectionUnitTests := none,
    toolings := some ⟨"SUCCESS", "", "", "JAVA"⟩ }

/-- Claim C3, as stated, is false on one point: detection presence is not
exactly the three-way conjunction.  `practiceC3` satisfies the conjunction
(suggestions enabled, tooling present, status `"SUCCESS"`), yet the
converted rule carries no detection program, because the tooling's `program`
text is empty (falsy). -/
theorem claim_C3_counterexample :
    shouldIncludeDetection practiceC3 = true
      ∧ (convertPracticeToRule 2 practiceC3).detectionProgram = none := by
  exact ⟨by decide, by decide⟩

/-- Claim C3, amended: the detection program is present exactly when the
three-way conjunction holds AND the tooling's program text is non-empty;
unit-test examples are dropped entirely when the conjunction fails and are
all converted when it holds; file-derived examples are always a suffix of
the output example lists, unconditionally. -/
theorem claim_C3_amended (contextLines : Int) (p : ParsedPractice) :
    ((convertPracticeToRule contextLines p).detectionProgram.isSome = true
        ↔ shouldIncludeDetection p = true
            ∧ ∃ t : Toolings, p.toolings = some t ∧ t.program ≠ "")
      ∧ (shouldIncludeDetection p = false →
          (convertPracticeToRule contextLines p).positiveExamples
              = (p.examples.filter
                  (fun ex => ex.fileWorkshop.isSome && ex.isPositive)).map
                  (convertFileWorkshopExample contextLines)
            ∧ (convertPracticeToRule contextLines p).negativeExamples
              = (p.examples.filter
                  (fun ex => ex.fileWorkshop.isSome && !ex.isPositive)).map
                  (convertFileWorkshopExample contextLines)
            ∧ (convertPracticeToRule contextLines p).detectionProgram = none)
      ∧ (shouldIncludeDetection p = true →
          (convertPracticeToRule contextLines p).positiveExamples
            = (((p.detectionUnitTests.getD []).filter
                  (fun t => t.isCompliant)).map
                (fun t => convertUnitTestToExample t (inferLanguage p)))
              ++ ((p.examples.filter
                    (fun ex => ex.fileWorkshop.isSome && ex.isPositive)).map
                  (convertFileWorkshopExample contextLines)))
      ∧ ((p.examples.filter
            (fun ex => ex.fileWorkshop.isSome && ex.isPositive)).map
            (convertFileWorkshopExample contextLines))
          <:+ (convertPracticeToRule contextLines p).positiveExamples := by
  refine ⟨?_, ?_, ?_, ?_⟩
  · constructor
    · intro hsome
      rcases htool : p.toolings with _ | t
      · rw [convertPracticeToRule_detectionProgram_none contextLines p htool]
          at hsome
        simp at hsome
      · rw [convertPracticeToRule_detectionProgram_some contextLines p t
          htool] at hsome
        by_cases hcond : shouldIncludeDetection p = true ∧ t.program ≠ ""
        · exact ⟨hcond.1, t, rfl, hcond.2⟩
        · rw [if_neg hcond] at hsome
          simp at hsome
    · rintro ⟨h1, t, htool, h2⟩
      rw [convertPracticeToRule_detectionProgram_some contextLines p t htool,
        if_pos ⟨h1, h2⟩]
      rfl
  · intro hfalse
    refine ⟨?_, ?_, ?_⟩
    · rw [convertPracticeToRule_positiveExamples, hfalse]
      simp
    · rw [convertPracticeToRule_negativeExamples, hfalse]
      simp
    · rcases htool : p.toolings with _ | t
      · exact convertPracticeToRule_detectionProgram_none contextLines p htool
      · rw [convertPracticeToRule_detectionProgram_some contextLines p t
          htool]
        rw [if_neg]
        rintro ⟨h1, -⟩
        rw [hfalse] at h1
        cases h1
  · intro htrue
    rw [convertPracticeToRule_positiveExamples, htrue]
    simp
  · rw [convertPracticeToRule_positiveExamples]
    exact List.suffix_append _ _

/-- The §8 scenario-D practice: suggestions disabled, successful tooling,
one positive and one negative file example, and unit tests. -/
def practiceC3D : ParsedPractice :=
  { name := "D", description := "", categories := [],
    examples :=
      [⟨⟨1, 1⟩, true, none, some ⟨[⟨1, "pos"⟩], some "kt", none⟩⟩,
       ⟨⟨1, 1⟩, false, none, some ⟨[⟨1, "neg"⟩], some "kt", none⟩⟩],
    space := "s", suggestionsDisabled := some true,
    detectionUnitTests := some [⟨none, "t1", true⟩, ⟨none, "t2", false⟩,
                                ⟨none, "t3", true⟩],
    toolings := some ⟨"SUCCESS", "prog", "", "KOTLIN"⟩ }

/-- Witness for claim C3 (amended): with `suggestionsDisabled = true` the
converted rule of `practiceC3D` drops its unit tests and detection program
but keeps both file examples. -/
theorem claim_C3_amended_witness :
    shouldIncludeDetection practiceC3D = false
      ∧ (convertPracticeToRule 2 practiceC3D).detectionProgram = none
      ∧ ((convertPracticeToRule 2 practiceC3D).positiveExamples.length = 1
        ∧ (convertPracticeToRule 2 practiceC3D).negativeExamples.length = 1) := by
  have h := (claim_C3_amended 2 practiceC3D).2.1 (by decide)
  refine ⟨by decide, h.2.2, ?_, ?_⟩
  · rw [h.1]; decide
  · rw [h.2.1]; decide

theorem areAllExamplesAvro_iff (p : ParsedPractice) :
    areAllExamplesAvro p = true
      ↔ truthyLangs p ≠ []
          ∧ ∀ lang ∈ truthyLangs p, asciiLower lang ∈ avroExtensions := by
  unfold areAllExamplesAvro
  by_cases h : (truthyLangs p).map asciiLower = []
  · have h' : truthyLangs p = [] := List.map_eq_nil_iff.mp h
    simp [h, h']
  · have h' : truthyLangs p ≠ [] := by
      intro hc
      exact h (by rw [hc]; rfl)
    simp only [h, if_neg, if_false]
    rw [List.all_eq_true]
    constructor
    · intro hall
      refine ⟨h', ?_⟩
      intro lang hlang
      have := hall (asciiLower lang) (List.mem_map_of_mem asciiLower hlang)
      simpa using this
    · rintro ⟨-, hall⟩
      intro x hx
      rcases List.mem_map.mp hx with ⟨lang, hlang, rfl⟩
      simpa using hall lang hlang

/-- A practice with an eligible detection program and no examples at all. -/
def practiceC9 : ParsedPractice :=
  { name := "Q", description := "", categories := [], examples := [],
    space := "s", suggestionsDisabled := none, detectionUnitTests := none,
    toolings := some ⟨"SUCCESS", "prog", "", "JAVA"⟩ }

/-- Claim C9, as stated, is false in the vacuous case: `practiceC9` has no
tagged file example, so "every file example's language tag belongs to the
Avro family" holds vacuously, yet the emitted detection-program language is
the tooling's `"JAVA"`, not the canonical AVRO tag —
`areAllExamplesAvro` deliberately returns false when no tag is present. -/
theorem claim_C9_counterexample :
    (∀ lang ∈ truthyLangs practiceC9, asciiLower lang ∈ avroExtensions)
      ∧ shouldIncludeDetection practiceC9 = true
      ∧ (convertPracticeToRule 2 practiceC9).detectionProgram
          = some ⟨"prog", "", "JAVA"⟩ := by
  exact ⟨by decide, by decide, by decide⟩

/-- Claim C9, amended: for a practice with an eligible, non-empty detection
program, the program's language is forced to the canonical AVRO tag exactly
when there is at least one tagged file example and every tag
(case-insensitively) is one of the three Avro extensions; otherwise —
including the no-tagged-example case — the tooling's declared language is
used verbatim. -/
theorem claim_C9_amended (contextLines : Int) (p : ParsedPractice)
    (t : Toolings) (ht : p.toolings = some t)
    (hinc : shouldIncludeDetection p = true) (hprog : t.program ≠ "") :
    (convertPracticeToRule contextLines p).detectionProgram
      = some ⟨t.program, t.programDescription,
          if truthyLangs p ≠ []
              ∧ ∀ lang ∈ truthyLangs p, asciiLower lang ∈ avroExtensions
          then ProgrammingLanguage.AVRO.enumStr
          else t.language⟩ := by
  rw [convertPracticeToRule_detectionProgram_some contextLines p t ht,
    if_pos ⟨hinc, hprog⟩]
  by_cases h : areAllExamplesAvro p = true
  · rw [if_pos h, if_pos ((areAllExamplesAvro_iff p).mp h)]
  · have hb : areAllExamplesAvro p = false := by
      cases hab : areAllExamplesAvro p
      · rfl
      · exact absurd hab h
    rw [hb, if_neg (fun hc => h ((areAllExamplesAvro_iff p).mpr hc))]
    rfl

/-- A practice with an eligible detection program whose only tagged file
example carries the (upper-cased) Avro extension `"AVSC"`. -/
def practiceC9w : ParsedPractice :=
  { name := "R", description := "", categories := [],
    examples := [⟨⟨1, 1⟩, true, none, some ⟨[⟨1, "x"⟩], some "AVSC", none⟩⟩],
    space := "s", suggestionsDisabled := none, detectionUnitTests := none,
    toolings := some ⟨"SUCCESS", "prog", "d", "JAVA"⟩ }

/-- Witness for claim C9 (amended): the all-Avro practice `practiceC9w` gets
its detection-program language forced to `"AVRO"` despite the tooling
declaring `"JAVA"`. -/
theorem claim_C9_amended_witness :
    (convertPracticeToRule 2 practiceC9w).detectionProgram
      = some ⟨"prog", "d", "AVRO"⟩ := by
  have h := claim_C9_amended 2 practiceC9w ⟨"SUCCESS", "prog", "d", "JAVA"⟩
    rfl (by decide) (by decide)
  exact h.trans (by decide)

/-! ## Standards mapping and the clustering post-processing loop
(CategoryMapper.ts) -/

/-- One standard of the LLM mapping (`{name, description, practices}`). -/
structure Standard where
  name : String
  description : String
  practices : List String
deriving DecidableEq

/-- The decoded `{standards: [...]}` response shape (`StandardsMapping`). -/
structure StandardsMapping where
  standards : List Standard
deriving DecidableEq

/-- All member names of a mapping, across the groups in order. -/
def allMemberNames (data : StandardsMapping) : List String :=
  (data.standards.map Standard.practices).flatten

/-- A member string is a deduplication candidate for the normalized name
`nm` when it is truthy (non-empty — the source's `if (practice)` guard) and
normalizes to `nm`. -/
def isDupCandidate (nm s : String) : Bool :=
  !(s == "") && (normalizeName s == nm)

/-- The candidate locations of `nm` inside one category's member list,
starting at practice index `p` of category `c`. -/
def locsCat (nm : String) (c : Nat) : Nat → List String → List (Nat × Nat)
  | _, [] => []
  | p, s :: rest =>
    if isDupCandidate nm s then (c, p) :: locsCat nm c (p + 1) rest
    else locsCat nm c (p + 1) rest

/-- Helper for `locationsOf`: the `(categoryIndex, practiceIndex)` locations
of the candidates of `nm`, scanning categories from index `c` on. -/
def locsAux (nm : String) : Nat → List Standard → List (Nat × Nat)
  | _, [] => []
  | c, cat :: rest => locsCat nm c 0 cat.practices ++ locsAux nm (c + 1) rest

/-- The `practiceLocations` entry of `removeDuplicatesRandomly` for one
normalized name: all its candidate locations in scan order. -/
def locationsOf (data : StandardsMapping) (nm : String) : List (Nat × Nat) :=
  locsAux nm 0 data.standards

/-- Whether `removeDuplicatesRandomly` keeps the practice `s` sitting at
`(categoryIndex c, practiceIndex p)`: empty strings are skipped by the
source's truthiness guard and always survive; a unique candidate survives;
among duplicates only the randomly chosen location survives.  The random
draw `Math.floor(Math.random() * n)` is modelled by an arbitrary choice
function reduced `% n`, which is always in range exactly as the draw is. -/
def keptAt (choose : String → Nat → Nat) (data : StandardsMapping)
    (c p : Nat) (s : String) : Bool :=
  if s = "" then true
  else
    let locs := locationsOf data (normalizeName s)
    if locs.length ≤ 1 then true
    else locs.get? (choose (normalizeName s) locs.length % locs.length)
        == some (c, p)

/-- The members of one category that `keep` retains, scanning from practice
index `p` of category `c`. -/
def keepCat (keep : Nat → Nat → String → Bool) (c : Nat) :
    Nat → List String → List String
  | _, [] => []
  | p, s :: rest =>
    if keep c p s then s :: keepCat keep c (p + 1) rest
    else keepCat keep c (p + 1) rest

/-- Helper of `removeDuplicatesRandomly`: rebuild the categories from index
`c` on, keeping exactly the positions `keep` accepts (removing a fixed set
of positions by descending `splice` is the same as filtering them out). -/
def dedupAux (keep : Nat → Nat → String → Bool) :
    Nat → List Standard → List Standard
  | _, [] => []
  | c, cat :: rest =>
    { cat with practices := keepCat keep c 0 cat.practices }
      :: dedupAux keep (c + 1) rest

/-- `removeDuplicatesRandomly`: for every truthy member name appearing (after
normalization) at two or more locations, keep the location picked by the
random choice and remove all the others. -/
def removeDuplicatesRandomly (choose : String → Nat → Nat)
    (data : StandardsMapping) : StandardsMapping :=
  ⟨dedupAux (fun c p s => keptAt choose data c p s) 0 data.standards⟩

/-- Count of the candidates of `nm` among the members of `cats`. -/
def countCand (nm : String) (cats : List Standard) : Nat :=
  ((cats.map Standard.practices).flatten.filter (isDupCandidate nm)).length

theorem locsCat_length (nm : String) (c : Nat) (l : List String) :
    ∀ p, (locsCat nm c p l).length
      = (l.filter (isDupCandidate nm)).length := by
  induction l with
  | nil => intro p; rfl
  | cons s rest ih =>
    intro p
    by_cases h : isDupCandidate nm s
    · simp [locsCat, List.filter_cons, h, ih]
    · simp [locsCat, List.filter_cons, h, ih]

theorem locsAux_length (nm : String) (cats : List Standard) :
    ∀ c, (locsAux nm c cats).length = countCand nm cats := by
  induction cats with
  | nil => intro c; rfl
  | cons cat rest ih =>
    intro c
    simp only [locsAux, countCand, List.map_cons, List.flatten_cons,
      List.filter_append, List.length_append, locsCat_length, ih]

theorem locsCat_mem (nm : String) (c : Nat) (l : List String) :
    ∀ p x, x ∈ locsCat nm c p l → x.1 = c ∧ p ≤ x.2 := by
  induction l with
  | nil => intro p x hx; cases hx
  | cons s rest ih =>
    intro p x hx
    by_cases h : isDupCandidate nm s
    · simp only [locsCat, h, if_pos] at hx
      rcases List.mem_cons.mp hx with hx' | hx'
      · subst hx'; exact ⟨rfl, le_refl p⟩
      · rcases ih (p + 1) x hx' with ⟨h1, h2⟩
        exact ⟨h1, by omega⟩
    · simp only [locsCat, h, if_neg] at hx
      rcases ih (p + 1) x hx with ⟨h1, h2⟩
      exact ⟨h1, by omega⟩

theorem locsCat_pairwise (nm : String) (c : Nat) (l : List String) :
    ∀ p, (locsCat nm c p l).Pairwise (fun x y => x.2 < y.2) := by
  induction l with
  | nil => intro p; exact List.Pairwise.nil
  | cons s rest ih =>
    intro p
    by_cases h : isDupCandidate nm s
    · simp only [locsCat, h, if_pos]
      refine List.pairwise_cons.mpr ⟨?_, ih (p + 1)⟩
      intro y hy
      have := (locsCat_mem nm c rest (p + 1) y hy).2
      omega
    · simp only [locsCat, h, if_neg]
      exact ih (p + 1)

theorem locsAux_mem (nm : String) (cats : List Standard) :
    ∀ c x, x ∈ locsAux nm c cats → c ≤ x.1 := by
  induction cats with
  | nil => intro c x hx; cases hx
  | cons cat rest ih =>
    intro c x hx
    simp only [locsAux, List.mem_append] at hx
    rcases hx with hx | hx
    · rw [(locsCat_mem nm c cat.practices 0 x hx).1]
    · have := ih (c + 1) x hx
      omega

theorem locsAux_nodup (nm : String) (cats : List Standard) :
    ∀ c, (locsAux nm c cats).Nodup := by
  induction cats with
  | nil => intro c; exact List.Pairwise.nil
  | cons cat rest ih =>
    intro c
    simp only [locsAux]
    rw [List.nodup_append]
    refine ⟨?_, ih (c + 1), ?_⟩
    · exact (locsCat_pairwise nm c cat.practices 0).imp
        (fun hlt heq => by rw [heq] at hlt; exact absurd hlt (lt_irrefl _))
    · intro x hx1 hx2
      have h1 := (locsCat_mem nm c cat.practices 0 x hx1).1
      have h2 := locsAux_mem nm rest (c + 1) x hx2
      omega

theorem keepCat_filter_length (nm : String)
    (keep : Nat → Nat → String → Bool) (Q : Nat × Nat → Bool) (c : Nat)
    (hQ : ∀ p s, isDupCandidate nm s = true → keep c p s = Q (c, p))
    (l : List String) :
    ∀ p, ((keepCat keep c p l).filter (isDupCandidate nm)).length
      = (locsCat nm c p l).countP Q := by
  induction l with
  | nil => intro p; rfl
  | cons s rest ih =>
    intro p
    by_cases hc : isDupCandidate nm s
    · have hk := hQ p s hc
      by_cases hq : Q (c, p) = true
      · have hkeep : keep c p s = true := by rw [hk, hq]
        simp [keepCat, locsCat, hc, hkeep, hq, List.filter_cons,
          List.countP_cons, ih]
      · have hkeep : keep c p s = false := by
          rw [hk]
          exact Bool.eq_false_iff.mpr hq
        simp [keepCat, locsCat, hc, hkeep, hq, List.countP_cons, ih]
    · by_cases hk : keep c p s
      · simp [keepCat, locsCat, hc, hk, List.filter_cons, ih]
      · simp [keepCat, locsCat, hc, hk, ih]

theorem dedupAux_countCand (nm : String) (keep : Nat → Nat → String → Bool)
    (Q : Nat × Nat → Bool)
    (hQ : ∀ c p s, isDupCandidate nm s = true → keep c p s = Q (c, p))
    (cats : List Standard) :
    ∀ c, countCand nm (dedupAux keep c cats)
      = (locsAux nm c cats).countP Q := by
  induction cats with
  | nil => intro c; rfl
  | cons cat rest ih =>
    intro c
    simp only [dedupAux, locsAux, countCand, List.map_cons, List.flatten_cons,
      List.filter_append, List.length_append, List.countP_append]
    rw [keepCat_filter_length nm keep Q c (fun p s h => hQ c p s h)
      cat.practices 0]
    have := ih (c + 1)
    simp only [countCand] at this
    rw [this]

theorem keepCat_sublist (keep : Nat → Nat → String → Bool) (c : Nat)
    (l : List String) : ∀ p, (keepCat keep c p l).Sublist l := by
  induction l with
  | nil => intro p; simp [keepCat]
  | cons s rest ih =>
    intro p
    by_cases h : keep c p s
    · simp only [keepCat, h, if_pos]
      exact (ih (p + 1)).cons₂ s
    · simp only [keepCat, h, if_neg]
      exact (ih (p + 1)).cons s

theorem dedupAux_forall2 (keep : Nat → Nat → String → Bool)
    (cats : List Standard) :
    ∀ c, List.Forall₂
      (fun r d => r.practices.Sublist d.practices
        ∧ r.name = d.name ∧ r.description = d.description)
      (dedupAux keep c cats) cats := by
  induction cats with
  | nil => intro c; exact List.Forall₂.nil
  | cons cat rest ih =>
    intro c
    exact List.Forall₂.cons ⟨keepCat_sublist keep c cat.practices 0, rfl, rfl⟩
      (ih (c + 1))

theorem countP_eq_one_of_nodup {α : Type} [DecidableEq α] (l : List α)
    (v : α) (hnodup : l.Nodup) (hv : v ∈ l) :
    l.countP (fun a => decide (a = v)) = 1 := by
  induction l with
  | nil => cases hv
  | cons a rest ih =>
    rcases List.nodup_cons.mp hnodup with ⟨ha, hrest⟩
    rcases List.mem_cons.mp hv with hv' | hv'
    · subst hv'
      rw [List.countP_cons]
      have hzero : rest.countP (fun a => decide (a = v)) = 0 := by
        rw [List.countP_eq_zero]
        intro b hb
        simp only [decide_eq_true_eq]
        intro hbv
        exact ha (hbv ▸ hb)
      simp [hzero]
    · rw [List.countP_cons]
      have hav : ¬ (a = v) := fun h => ha (h ▸ hv')
      simp [ih hrest hv', hav]

theorem removeDuplicatesRandomly_countCand (choose : String → Nat → Nat)
    (data : StandardsMapping) (nm : String) :
    countCand nm (removeDuplicatesRandomly choose data).standards
      = min (countCand nm data.standards) 1 := by
  have hQ : ∀ c p s, isDupCandidate nm s = true →
      keptAt choose data c p s
        = (if (locationsOf data nm).length ≤ 1 then true
           else (locationsOf data nm).get?
              (choose nm (locationsOf data nm).length
                % (locationsOf data nm).length) == some (c, p)) := by
    intro c p s hs
    simp only [isDupCandidate, Bool.and_eq_true, Bool.not_eq_true',
      beq_iff_eq, beq_eq_false_iff_ne, ne_eq] at hs
    unfold keptAt
    rw [if_neg hs.1, hs.2]
  have h := dedupAux_countCand nm (fun c p s => keptAt choose data c p s)
    (fun loc : Nat × Nat =>
      if (locationsOf data nm).length ≤ 1 then true
      else (locationsOf data nm).get?
          (choose nm (locationsOf data nm).length
            % (locationsOf data nm).length) == some loc)
    (fun c p s hs => hQ c p s hs) data.standards 0
  have hstd : (removeDuplicatesRandomly choose data).standards
      = dedupAux (fun c p s => keptAt choose data c p s) 0
        data.standards := rfl
  have hloc : locsAux nm 0 data.standards = locationsOf data nm := rfl
  rw [hstd, h, hloc]
  have hlen : (locationsOf data nm).length = countCand nm data.standards := by
    rw [← locsAux_length nm data.standards 0]
    rfl
  by_cases hle : (locationsOf data nm).length ≤ 1
  · have hall : (locationsOf data nm).countP
        (fun loc : Nat × Nat =>
          if (locationsOf data nm).length ≤ 1 then true
          else (locationsOf data nm).get?
              (choose nm (locationsOf data nm).length
                % (locationsOf data nm).length) == some loc)
        = (locationsOf data nm).length := by
      rw [List.countP_eq_length]
      intro a ha
      simp [hle]
    rw [hall, hlen]
    omega
  · have hpos : 1 < (locationsOf data nm).length := by omega
    have hklt : choose nm (locationsOf data nm).length
        % (locationsOf data nm).length < (locationsOf data nm).length :=
      Nat.mod_lt _ (by omega)
    obtain ⟨v, hv⟩ : ∃ v, (locationsOf data nm).get?
        (choose nm (locationsOf data nm).length
          % (locationsOf data nm).length) = some v :=
      ⟨_, List.get?_eq_get hklt⟩
    have hcount : (locationsOf data nm).countP
        (fun loc : Nat × Nat =>
          if (locationsOf data nm).length ≤ 1 then true
          else (locationsOf data nm).get?
              (choose nm (locationsOf data nm).length
                % (locationsOf data nm).length) == some loc)
        = (locationsOf data nm).countP (fun a => decide (a = v)) := by
      apply List.countP_congr
      intro a ha
      rw [if_neg hle, hv]
      by_cases hva : v = a
      · subst hva
        simp
      · have h1 : (some v == some a) = false := by simp [hva]
        have h2 : decide (a = v) = false := by
          simp only [decide_eq_false_iff_not]
          exact fun h => hva h.symm
        rw [h1, h2]
    have hvmem : v ∈ locationsOf data nm := List.get?_mem hv
    rw [hcount, countP_eq_one_of_nodup _ v
      (show (locationsOf data nm).Nodup from
        locsAux_nodup nm data.standards 0) hvmem]
    rw [hlen] at hpos
    omega

theorem mem_dedupAux (keep : Nat → Nat → String → Bool)
    (cats : List Standard) :
    ∀ c s, s ∈ ((dedupAux keep c cats).map Standard.practices).flatten →
      s ∈ (cats.map Standard.practices).flatten := by
  induction cats with
  | nil => intro c s h; simp [dedupAux] at h
  | cons cat rest ih =>
    intro c s h
    simp only [dedupAux, List.map_cons, List.flatten_cons,
      List.mem_append] at h ⊢
    rcases h with h | h
    · exact Or.inl ((keepCat_sublist keep c cat.practices 0).subset h)
    · exact Or.inr (ih (c + 1) s h)

theorem mem_removeDuplicatesRandomly (choose : String → Nat → Nat)
    (data : StandardsMapping) (s : String)
    (h : s ∈ allMemberNames (removeDuplicatesRandomly choose data)) :
    s ∈ allMemberNames data :=
  mem_dedupAux _ data.standards 0 s h

theorem count_map_normalize (cats : List Standard) (a : String)
    (hne : ∀ s ∈ (cats.map Standard.practices).flatten, s ≠ "") :
    ((cats.map Standard.practices).flatten.map normalizeName).count a
      = countCand a cats := by
  rw [List.count, List.countP_map, countCand,
    ← List.countP_eq_length_filter]
  apply List.countP_congr
  intro s hs
  simp only [Function.comp_apply, isDupCandidate]
  have : (s == "") = false := by
    simp [hne s hs]
  rw [this]
  simp

theorem dedup_nodup_normalized (choose : String → Nat → Nat)
    (data : StandardsMapping)
    (hne : ∀ s ∈ allMemberNames data, s ≠ "") :
    ((allMemberNames (removeDuplicatesRandomly choose data)).map
      normalizeName).Nodup := by
  rw [List.nodup_iff_count_le_one]
  intro a
  have hne' : ∀ s ∈ ((removeDuplicatesRandomly choose data).standards.map
      Standard.practices).flatten, s ≠ "" :=
    fun s hs => hne s (mem_removeDuplicatesRandomly choose data s hs)
  have hc := count_map_normalize
    (removeDuplicatesRandomly choose data).standards a hne'
  have hgoal : (allMemberNames (removeDuplicatesRandomly choose data)).map
      normalizeName
      = ((removeDuplicatesRandomly choose data).standards.map
          Standard.practices).flatten.map normalizeName := rfl
  rw [hgoal, hc, removeDuplicatesRandomly_countCand]
  omega

/-- Two groups both holding the empty-string member. -/
def c7data : StandardsMapping := ⟨[⟨"G1", "", [""]⟩, ⟨"G2", "", [""]⟩]⟩

/-- Claim C7, as stated, is false for empty member names: the member `""`
appears in two groups of `c7data`, yet duplicate resolution removes nothing
(the source's `if (practice)` truthiness guard skips empty strings), so
`""` still appears in both groups afterwards. -/
theorem claim_C7_counterexample :
    (allMemberNames c7data).count "" = 2
      ∧ removeDuplicatesRandomly (fun _ _ => 0) c7data = c7data := by
  exact ⟨by decide, by decide⟩

/-- Claim C7, amended: restricted to non-empty (truthy) member names, and
with the uniform random draw modelled as an arbitrary in-range choice
(`choose nm n % n`), duplicate resolution keeps, for every name
(case-insensitive) with two or more occurrences, exactly one occurrence,
chosen among the original occurrences (each output group's member list is a
sublist of the input group's); never-duplicated names keep their single
occurrence; no name present before is absent after; group names,
descriptions and order are untouched; and afterwards no duplicates remain
when all member names are non-empty. -/
theorem claim_C7_amended (choose : String → Nat → Nat)
    (data : StandardsMapping)
    (hne : ∀ s ∈ allMemberNames data, s ≠ "") :
    List.Forall₂
        (fun r d => r.practices.Sublist d.practices
          ∧ r.name = d.name ∧ r.description = d.description)
        (removeDuplicatesRandomly choose data).standards data.standards
      ∧ (∀ nm, 2 ≤ countCand nm data.standards →
          countCand nm (removeDuplicatesRandomly choose data).standards = 1)
      ∧ (∀ nm, countCand nm data.standards = 1 →
          countCand nm (removeDuplicatesRandomly choose data).standards = 1)
      ∧ (∀ nm, 0 < countCand nm data.standards ↔
          0 < countCand nm (removeDuplicatesRandomly choose data).standards)
      ∧ ((allMemberNames (removeDuplicatesRandomly choose data)).map
          normalizeName).Nodup := by
  refine ⟨dedupAux_forall2 _ data.standards 0, ?_, ?_, ?_,
    dedup_nodup_normalized choose data hne⟩
  · intro nm h2
    rw [removeDuplicatesRandomly_countCand]
    omega
  · intro nm h1
    rw [removeDuplicatesRandomly_countCand]
    omega
  · intro nm
    rw [removeDuplicatesRandomly_countCand]
    omega

/-- A mapping where the name "a" appears, case-insensitively, in both
groups. -/
def c7w : StandardsMapping :=
  ⟨[⟨"G1", "", ["a", "b"]⟩, ⟨"G2", "", ["A ", "c"]⟩]⟩

/-- Witness for claim C7 (amended): in `c7w` the name "a" occurs twice
(as `"a"` and `"A "`); after resolution it occurs exactly once. -/
theorem claim_C7_amended_witness :
    (∀ s ∈ allMemberNames c7w, s ≠ "")
      ∧ 2 ≤ countCand "a" c7w.standards
      ∧ countCand "a"
          (removeDuplicatesRandomly (fun _ _ => 0) c7w).standards = 1 :=
  ⟨by decide, by decide,
    (claim_C7_amended (fun _ _ => 0) c7w (by decide)).2.1 "a" (by decide)⟩

/-- `findMissingPractices`: the original names (original casing) whose
normalized form appears in no group of the mapping, in original map order. -/
def findMissingPractices (originalPractices : List (String × String))
    (mapping : StandardsMapping) : List String :=
  let mappedPractices := (allMemberNames mapping).map normalizeName
  (originalPractices.filter
      (fun kv => !(mappedPractices.contains kv.1))).map (fun kv => kv.2)

/-- One `Map.set` step of the original-practices map: a JavaScript `Map`
keeps the first-insertion position of a key and overwrites its value. -/
def mapSetName : List (String × String) → String → String →
    List (String × String)
  | [], k, v => [(k, v)]
  | kv :: rest, k, v =>
    if kv.1 = k then (kv.1, v) :: rest else kv :: mapSetName rest k v

/-- `extractOriginalPracticeNames`: the normalized-name → original-name map
of the minified input, skipping falsy (empty) names. -/
def extractOriginalPracticeNames (names : List String) :
    List (String × String) :=
  names.foldl
    (fun m name =>
      if name = "" then m else mapSetName m (normalizeName name) name) []

theorem contains_iff_mem {α : Type} [BEq α] [LawfulBEq α] (l : List α)
    (a : α) : l.contains a = true ↔ a ∈ l :=
  List.elem_iff

theorem contains_eq_false_iff {α : Type} [BEq α] [LawfulBEq α]
    (l : List α) (a : α) : l.contains a = false ↔ a ∉ l := by
  rw [Bool.eq_false_iff]
  exact not_congr (contains_iff_mem l a)

theorem mem_mapSetName (k v : String) :
    ∀ m, ∀ kv ∈ mapSetName m k v, kv ∈ m ∨ kv = (k, v) := by
  intro m
  induction m with
  | nil =>
    intro kv h
    simp only [mapSetName, List.mem_singleton] at h
    exact Or.inr h
  | cons kv0 rest ih =>
    intro kv h
    simp only [mapSetName] at h
    by_cases h0 : kv0.1 = k
    · rw [if_pos h0] at h
      rcases List.mem_cons.mp h with h2 | h2
      · rw [h2, h0]
        exact Or.inr rfl
      · exact Or.inl (List.mem_cons_of_mem _ h2)
    · rw [if_neg h0] at h
      rcases List.mem_cons.mp h with h2 | h2
      · exact Or.inl (h2 ▸ List.mem_cons_self _ _)
      · rcases ih kv h2 with h3 | h3
        · exact Or.inl (List.mem_cons_of_mem _ h3)
        · exact Or.inr h3

theorem mapSetName_fst (k v : String) :
    ∀ m, (mapSetName m k v).map Prod.fst
      = if k ∈ m.map Prod.fst then m.map Prod.fst
        else m.map Prod.fst ++ [k] := by
  intro m
  induction m with
  | nil => simp [mapSetName]
  | cons kv0 rest ih =>
    simp only [mapSetName, List.map_cons]
    by_cases h0 : kv0.1 = k
    · rw [if_pos h0]
      have hk : k ∈ kv0.1 :: rest.map Prod.fst :=
        h0 ▸ List.mem_cons_self _ _
      rw [if_pos hk]
      simp [h0]
    · rw [if_neg h0]
      by_cases hk : k ∈ rest.map Prod.fst
      · have hk2 : k ∈ kv0.1 :: rest.map Prod.fst :=
          List.mem_cons_of_mem _ hk
        rw [if_pos hk2]
        simp only [List.map_cons, ih, if_pos hk]
      · have hk2 : ¬ k ∈ kv0.1 :: rest.map Prod.fst := by
          intro hc
          rcases List.mem_cons.mp hc with hc' | hc'
          · exact h0 hc'.symm
          · exact hk hc'
        rw [if_neg hk2]
        simp only [List.map_cons, ih, if_neg hk, List.cons_append]

theorem mapSetName_fst_nodup (k v : String) (m : List (String × String))
    (h : (m.map Prod.fst).Nodup) :
    ((mapSetName m k v).map Prod.fst).Nodup := by
  rw [mapSetName_fst]
  by_cases hk : k ∈ m.map Prod.fst
  · rw [if_pos hk]
    exact h
  · rw [if_neg hk]
    rw [List.nodup_append]
    refine ⟨h, List.nodup_singleton k, ?_⟩
    intro x hx1 hx2
    rw [List.mem_singleton.mp hx2] at hx1
    exact hk hx1

theorem extractOriginalPracticeNames_spec (names : List String) :
    (∀ kv ∈ extractOriginalPracticeNames names, kv.1 = normalizeName kv.2)
      ∧ ((extractOriginalPracticeNames names).map Prod.fst).Nodup := by
  have main : ∀ (ns : List String) (m : List (String × String)),
      (∀ kv ∈ m, kv.1 = normalizeName kv.2) → (m.map Prod.fst).Nodup →
      (∀ kv ∈ ns.foldl (fun m name => if name = "" then m
            else mapSetName m (normalizeName name) name) m,
          kv.1 = normalizeName kv.2)
        ∧ ((ns.foldl (fun m name => if name = "" then m
            else mapSetName m (normalizeName name) name) m).map
            Prod.fst).Nodup := by
    intro ns
    induction ns with
    | nil =>
      intro m h1 h2
      exact ⟨h1, h2⟩
    | cons name rest ih =>
      intro m h1 h2
      simp only [List.foldl_cons]
      by_cases hn : name = ""
      · rw [if_pos hn]
        exact ih m h1 h2
      · rw [if_neg hn]
        apply ih
        · intro kv hkv
          rcases mem_mapSetName _ _ m kv hkv with h3 | h3
          · exact h1 kv h3
          · rw [h3]
        · exact mapSetName_fst_nodup _ _ m h2
  exact main names [] (fun kv h => absurd h (List.not_mem_nil kv))
    List.Pairwise.nil

/-- `existingByName.get(...)` of `mergeRetryResults`: the map is built by
`Map.set` over the categories in order, so a name duplicated among the
existing categories points at the **last** category carrying it. -/
def lastIdxOfName (cats : List Standard) (nm : String) : Option Nat :=
  ((cats.enum.filter (fun ci => normalizeName ci.2.name == nm)).getLast?).map
    (fun ci => ci.1)

/-- In-place update of the element at index `i` (the aliased mutation of the
category object held by the lookup map). -/
def updateAt {α : Type} (l : List α) (i : Nat) (f : α → α) : List α :=
  match l, i with
  | [], _ => []
  | a :: rest, 0 => f a :: rest
  | a :: rest, i + 1 => a :: updateAt rest i f

/-- One push of a retry practice into an existing category's member list:
skipped when the category already holds the name (case-insensitively). -/
def mergeMember (practices : List String) (practice : String) :
    List String :=
  if practices.any (fun q => normalizeName q == normalizeName practice) then
    practices
  else practices ++ [practice]

/-- Merge one retry category: look up the existing category by normalized
name (hallucinated names are discarded) and append its non-duplicate
members. -/
def mergeOne (cats : List Standard) (retryCat : Standard) : List Standard :=
  match lastIdxOfName cats (normalizeName retryCat.name) with
  | none => cats
  | some i =>
    updateAt cats i (fun cat =>
      { cat with
        practices := retryCat.practices.foldl mergeMember cat.practices })

/-- `mergeRetryResults`: a retry response that fails to parse (or lacks the
`standards` key) is `none` and merges nothing — the existing mapping is
returned unchanged; otherwise every retry category is merged in order. -/
def mergeRetryResults (existing : StandardsMapping)
    (retry : Option StandardsMapping) : StandardsMapping :=
  match retry with
  | none => existing
  | some retryData => ⟨retryData.standards.foldl mergeOne existing.standards⟩

theorem mem_foldl_mergeMember (ps : List String) :
    ∀ init x, x ∈ ps.foldl mergeMember init → x ∈ init ∨ x ∈ ps := by
  induction ps with
  | nil => intro init x h; exact Or.inl h
  | cons q rest ih =>
    intro init x h
    rcases ih (mergeMember init q) x h with h' | h'
    · unfold mergeMember at h'
      by_cases hq : init.any (fun r => normalizeName r == normalizeName q)
      · rw [if_pos hq] at h'
        exact Or.inl h'
      · rw [if_neg hq] at h'
        rcases List.mem_append.mp h' with h2 | h2
        · exact Or.inl h2
        · rw [List.mem_singleton.mp h2]
          exact Or.inr (List.mem_cons_self _ _)
    · exact Or.inr (List.mem_cons_of_mem _ h')

theorem mem_updateAt_flatten {α : Type} (P : α → Prop)
    (g : List α → List α) (hg : ∀ l x, x ∈ g l → x ∈ l ∨ P x) :
    ∀ (L : List (List α)) (i : Nat) (x : α),
      x ∈ (updateAt L i g).flatten → x ∈ L.flatten ∨ P x := by
  intro L
  induction L with
  | nil => intro i x h; simp [updateAt] at h
  | cons l rest ih =>
    intro i x h
    cases i with
    | zero =>
      simp only [updateAt, List.flatten_cons, List.mem_append] at h ⊢
      rcases h with h | h
      · rcases hg l x h with h' | h'
        · exact Or.inl (Or.inl h')
        · exact Or.inr h'
      · exact Or.inl (Or.inr h)
    | succ i =>
      simp only [updateAt, List.flatten_cons, List.mem_append] at h ⊢
      rcases h with h | h
      · exact Or.inl (Or.inl h)
      · rcases ih i x h with h' | h'
        · exact Or.inl (Or.inr h')
        · exact Or.inr h'

theorem mergeOne_map_practices (rc : Standard) (cats : List Standard) :
    ∀ i, (updateAt cats i (fun cat =>
        { cat with
          practices := rc.practices.foldl mergeMember cat.practices })).map
          Standard.practices
      = updateAt (cats.map Standard.practices) i
          (fun ps => rc.practices.foldl mergeMember ps) := by
  induction cats with
  | nil => intro i; rfl
  | cons cat rest ih =>
    intro i
    cases i with
    | zero => rfl
    | succ i =>
      simp only [updateAt, List.map_cons, ih]

theorem mem_mergeOne (cats : List Standard) (rc : Standard) (x : String)
    (h : x ∈ ((mergeOne cats rc).map Standard.practices).flatten) :
    x ∈ (cats.map Standard.practices).flatten ∨ x ∈ rc.practices := by
  unfold mergeOne at h
  split at h
  · exact Or.inl h
  · rw [mergeOne_map_practices] at h
    exact mem_updateAt_flatten (· ∈ rc.practices)
      (fun ps => rc.practices.foldl mergeMember ps)
      (fun l y hy => mem_foldl_mergeMember rc.practices l y hy)
      (cats.map Standard.practices) _ x h

theorem mem_mergeRetryResults (existing : StandardsMapping)
    (retry : Option StandardsMapping) (x : String)
    (h : x ∈ allMemberNames (mergeRetryResults existing retry)) :
    x ∈ allMemberNames existing
      ∨ ∃ d, retry = some d ∧ ∃ rc ∈ d.standards, x ∈ rc.practices := by
  cases retry with
  | none => exact Or.inl h
  | some d =>
    have hfold : ∀ (rcs cats : List Standard) (x : String),
        x ∈ ((rcs.foldl mergeOne cats).map Standard.practices).flatten →
        x ∈ (cats.map Standard.practices).flatten
          ∨ ∃ rc ∈ rcs, x ∈ rc.practices := by
      intro rcs
      induction rcs with
      | nil => intro cats x h; exact Or.inl h
      | cons rc rest ih =>
        intro cats x h
        rcases ih (mergeOne cats rc) x h with h' | h'
        · rcases mem_mergeOne cats rc x h' with h2 | h2
          · exact Or.inl h2
          · exact Or.inr ⟨rc, List.mem_cons_self _ _, h2⟩
        · rcases h' with ⟨rc', hrc', hx⟩
          exact Or.inr ⟨rc', List.mem_cons_of_mem _ hrc', hx⟩
    rcases hfold d.standards existing.standards x h with h' | ⟨rc, hrc, hx⟩
    · exact Or.inl h'
    · exact Or.inr ⟨d, rfl, rc, hrc, hx⟩

theorem NP_mergeRetryResults (existing : StandardsMapping)
    (retry : Option StandardsMapping)
    (h1 : ∀ s ∈ allMemberNames existing, s ≠ "")
    (h2 : ∀ d, retry = some d → ∀ s ∈ allMemberNames d, s ≠ "") :
    ∀ s ∈ allMemberNames (mergeRetryResults existing retry), s ≠ "" := by
  intro s hs
  rcases mem_mergeRetryResults existing retry s hs with h | ⟨d, hd, rc, hrc, hx⟩
  · exact h1 s h
  · exact h2 d hd s
      (List.mem_flatten.mpr
        ⟨rc.practices, List.mem_map_of_mem Standard.practices hrc, hx⟩)

/-- The synthetic catch-all group appended by `postProcessMapping`. -/
def fallbackStandard (missing : List String) : Standard :=
  { name := "To Categorize",
    description :=
      "Practices that could not be automatically categorized after multiple attempts",
    practices := missing }

/-- The `for (attempt = 1; attempt <= MAX_RETRIES; ...)` loop of
`postProcessMapping`, recursing on the number of remaining attempts: each
attempt deduplicates, stops when nothing is missing, and otherwise (when
attempts remain) merges the round's retry response and continues. -/
def postLoop (choose : Nat → String → Nat → Nat)
    (retries : Nat → Option StandardsMapping)
    (orig : List (String × String)) :
    Nat → Nat → StandardsMapping → StandardsMapping
  | 0, _, mapping => mapping
  | remaining + 1, attempt, mapping =>
    let deduped := removeDuplicatesRandomly (choose attempt) mapping
    let missing := findMissingPractices orig deduped
    if missing = [] then deduped
    else if remaining = 0 then deduped
    else postLoop choose retries orig remaining (attempt + 1)
        (mergeRetryResults deduped (retries attempt))

/-- `postProcessMapping` (MAX_RETRIES = 5): the bounded validation loop
followed by the fallback bucket for the still-missing practices. -/
def postProcessMapping (choose : Nat → String → Nat → Nat)
    (retries : Nat → Option StandardsMapping)
    (orig : List (String × String)) (mapping : StandardsMapping) :
    StandardsMapping :=
  let m := postLoop choose retries orig 5 1 mapping
  let finalMissing := findMissingPractices orig m
  if finalMissing = [] then m
  else ⟨m.standards ++ [fallbackStandard finalMissing]⟩

/-- `CategoryMapper.parseResponse`: a response that does not decode to the
`{standards: [...]}` shape is a hard error. -/
def parseResponse (response : Option StandardsMapping) :
    Except String StandardsMapping :=
  match response with
  | none => Except.error "Invalid LLM response: missing categories"
  | some data => Except.ok data

/-- The mapping part of `CategoryMapper.run`: parse the initial response
(hard error on failure) and post-process. -/
def runCategoryMapper (choose : Nat → String → Nat → Nat)
    (retries : Nat → Option StandardsMapping)
    (orig : List (String × String))
    (initialResponse : Option StandardsMapping) :
    Except String StandardsMapping :=
  match parseResponse initialResponse with
  | Except.error msg => Except.error msg
  | Except.ok mapping =>
    Except.ok (postProcessMapping choose retries orig mapping)

theorem postLoop_shape (choose : Nat → String → Nat → Nat)
    (retries : Nat → Option StandardsMapping)
    (orig : List (String × String))
    (hretry : ∀ k d, retries k = some d → ∀ s ∈ allMemberNames d, s ≠ "") :
    ∀ (remaining attempt : Nat) (m : StandardsMapping),
      (∀ s ∈ allMemberNames m, s ≠ "") →
      ∃ a m', (∀ s ∈ allMemberNames m', s ≠ "")
        ∧ postLoop choose retries orig (remaining + 1) attempt m
            = removeDuplicatesRandomly (choose a) m' := by
  intro remaining
  induction remaining with
  | zero =>
    intro attempt m hm
    refine ⟨attempt, m, hm, ?_⟩
    simp only [postLoop]
    split
    · rfl
    · simp
  | succ r ih =>
    intro attempt m hm
    by_cases hmiss : findMissingPractices orig
        (removeDuplicatesRandomly (choose attempt) m) = []
    · refine ⟨attempt, m, hm, ?_⟩
      simp only [postLoop]
      rw [if_pos hmiss]
    · have hstep := ih (attempt + 1)
        (mergeRetryResults (removeDuplicatesRandomly (choose attempt) m)
          (retries attempt))
        (NP_mergeRetryResults _ _
          (fun s hs => hm s (mem_removeDuplicatesRandomly _ _ s hs))
          (fun d hd => hretry attempt d hd))
      rcases hstep with ⟨a, m', hm', heq⟩
      refine ⟨a, m', hm', ?_⟩
      have hunfold : postLoop choose retries orig (r + 1 + 1) attempt m
          = if findMissingPractices orig
                (removeDuplicatesRandomly (choose attempt) m) = [] then
              removeDuplicatesRandomly (choose attempt) m
            else if r + 1 = 0 then
              removeDuplicatesRandomly (choose attempt) m
            else postLoop choose retries orig (r + 1) (attempt + 1)
                (mergeRetryResults
                  (removeDuplicatesRandomly (choose attempt) m)
                  (retries attempt)) := rfl
      rw [hunfold, if_neg hmiss, if_neg (Nat.succ_ne_zero r), heq]


theorem allMemberNames_append_fallback (m : StandardsMapping)
    (miss : List String) :
    allMemberNames ⟨m.standards ++ [fallbackStandard miss]⟩
      = allMemberNames m ++ miss := by
  simp [allMemberNames, fallbackStandard, List.flatten_append]

theorem findMissing_with_fallback (orig : List (String × String))
    (hk : ∀ kv ∈ orig, kv.1 = normalizeName kv.2) (m : StandardsMapping) :
    findMissingPractices orig
      ⟨m.standards ++ [fallbackStandard (findMissingPractices orig m)]⟩
      = [] := by
  have hout : findMissingPractices orig
      ⟨m.standards ++ [fallbackStandard (findMissingPractices orig m)]⟩
      = (orig.filter (fun kv =>
          !(((allMemberNames m ++ findMissingPractices orig m).map
            normalizeName).contains kv.1))).map (fun kv => kv.2) := by
    unfold findMissingPractices
    rw [allMemberNames_append_fallback]
  rw [hout]
  have hfil : orig.filter (fun kv =>
      !(((allMemberNames m ++ findMissingPractices orig m).map
        normalizeName).contains kv.1)) = [] := by
    rw [List.filter_eq_nil_iff]
    intro kv hkv
    simp only [Bool.not_eq_true', contains_eq_false_iff, not_not]
    rw [List.map_append, List.mem_append]
    by_cases hin : kv.1 ∈ (allMemberNames m).map normalizeName
    · exact Or.inl hin
    · right
      have hpass : kv ∈ orig.filter (fun kv =>
          !(((allMemberNames m).map normalizeName).contains kv.1)) := by
        rw [List.mem_filter]
        refine ⟨hkv, ?_⟩
        simp only [Bool.not_eq_true', contains_eq_false_iff]
        exact hin
      have h2 : kv.2 ∈ findMissingPractices orig m := by
        unfold findMissingPractices
        exact List.mem_map_of_mem (fun kv => kv.2) hpass
      rw [hk kv hkv]
      exact List.mem_map_of_mem normalizeName h2
  rw [hfil]
  rfl

theorem findMissing_map_normalize (orig : List (String × String))
    (hk : ∀ kv ∈ orig, kv.1 = normalizeName kv.2) (m : StandardsMapping) :
    (findMissingPractices orig m).map normalizeName
      = (orig.filter (fun kv =>
          !(((allMemberNames m).map normalizeName).contains kv.1))).map
          Prod.fst := by
  unfold findMissingPractices
  rw [List.map_map]
  apply List.map_congr_left
  intro kv hkv
  have := hk kv (List.mem_filter.mp hkv).1
  simp only [Function.comp_apply]
  exact this.symm

theorem final_nodup (orig : List (String × String))
    (hk : ∀ kv ∈ orig, kv.1 = normalizeName kv.2)
    (hkeys : (orig.map Prod.fst).Nodup) (m : StandardsMapping)
    (hm : ((allMemberNames m).map normalizeName).Nodup) :
    ((allMemberNames ⟨m.standards
        ++ [fallbackStandard (findMissingPractices orig m)]⟩).map
      normalizeName).Nodup := by
  rw [allMemberNames_append_fallback, List.map_append, List.nodup_append]
  refine ⟨hm, ?_, ?_⟩
  · rw [findMissing_map_normalize orig hk m]
    exact hkeys.sublist ((List.filter_sublist orig).map Prod.fst)
  · intro x hx1 hx2
    rw [findMissing_map_normalize orig hk m] at hx2
    rcases List.mem_map.mp hx2 with ⟨kv, hkvf, hfst⟩
    rcases List.mem_filter.mp hkvf with ⟨hkvorig, hpred⟩
    simp only [Bool.not_eq_true', contains_eq_false_iff] at hpred
    rw [← hfst] at hx1
    exact hpred hx1

/-- A mapping holding a fabricated member name and the empty member in two
groups, against the single original practice "p1". -/
def c1mapping : StandardsMapping :=
  ⟨[⟨"G1", "", ["bogus", ""]⟩, ⟨"G2", "", [""]⟩]⟩

/-- Claim C1, as stated, is false on two points.  Post-processing `c1mapping`
against the original set `{p1}` (with every retry round failing to parse)
returns a mapping whose member-name union strictly exceeds the original set
("bogus" survives: nothing ever removes names that are not in the original
set), and in which the empty member name still appears in two groups (the
dedup step's truthiness guard skips empty strings). -/
theorem claim_C1_counterexample :
    normalizeName "bogus" ∈ (allMemberNames
        (postProcessMapping (fun _ _ _ => 0) (fun _ => none)
          (extractOriginalPracticeNames ["p1"]) c1mapping)).map normalizeName
      ∧ normalizeName "bogus"
          ∉ (extractOriginalPracticeNames ["p1"]).map Prod.fst
      ∧ ¬ ((allMemberNames
          (postProcessMapping (fun _ _ _ => 0) (fun _ => none)
            (extractOriginalPracticeNames ["p1"]) c1mapping)).map
          normalizeName).Nodup := by
  exact ⟨by decide, by decide, by decide⟩

/-- Claim C1, amended: for mappings and retry responses whose member names
are all non-empty (the source's truthiness guards skip empty strings), after
`postProcessMapping` returns, every original practice name appears
(case-insensitively) in some group — `findMissingPractices` returns nothing —
and no member name appears in more than one group; but the union of member
names may strictly exceed the original set (fabricated names survive), so
the union contains rather than equals the original name set. -/
theorem claim_C1_amended (choose : Nat → String → Nat → Nat)
    (retries : Nat → Option StandardsMapping) (names : List String)
    (mapping : StandardsMapping)
    (hmem : ∀ s ∈ allMemberNames mapping, s ≠ "")
    (hretry : ∀ k d, retries k = some d → ∀ s ∈ allMemberNames d, s ≠ "") :
    findMissingPractices (extractOriginalPracticeNames names)
        (postProcessMapping choose retries
          (extractOriginalPracticeNames names) mapping) = []
      ∧ ((allMemberNames (postProcessMapping choose retries
            (extractOriginalPracticeNames names) mapping)).map
          normalizeName).Nodup := by
  obtain ⟨hk, hkeys⟩ := extractOriginalPracticeNames_spec names
  rcases postLoop_shape choose retries (extractOriginalPracticeNames names)
    hretry 4 1 mapping hmem with ⟨a, m', hm', heq⟩
  have hpl : postLoop choose retries (extractOriginalPracticeNames names)
      5 1 mapping = removeDuplicatesRandomly (choose a) m' := heq
  have hplnodup : ((allMemberNames (postLoop choose retries
      (extractOriginalPracticeNames names) 5 1 mapping)).map
      normalizeName).Nodup := by
    rw [hpl]
    exact dedup_nodup_normalized _ _ hm'
  unfold postProcessMapping
  by_cases hfin : findMissingPractices (extractOriginalPracticeNames names)
      (postLoop choose retries (extractOriginalPracticeNames names)
        5 1 mapping) = []
  · rw [if_pos hfin]
    exact ⟨hfin, hplnodup⟩
  · rw [if_neg hfin]
    exact ⟨findMissing_with_fallback _ hk _,
      final_nodup _ hk hkeys _ hplnodup⟩

/-- Witness for claim C1 (amended) at a concrete input: three original
practices, a mapping covering two of them; the result covers all three with
no duplicates. -/
theorem claim_C1_amended_witness :
    (∀ s ∈ allMemberNames ⟨[⟨"G", "", ["p1", "p2"]⟩]⟩, s ≠ "")
      ∧ findMissingPractices (extractOriginalPracticeNames ["p1", "p2", "p3"])
          (postProcessMapping (fun _ _ _ => 0) (fun _ => none)
            (extractOriginalPracticeNames ["p1", "p2", "p3"])
            ⟨[⟨"G", "", ["p1", "p2"]⟩]⟩) = []
      ∧ ((allMemberNames (postProcessMapping (fun _ _ _ => 0) (fun _ => none)
            (extractOriginalPracticeNames ["p1", "p2", "p3"])
            ⟨[⟨"G", "", ["p1", "p2"]⟩]⟩)).map normalizeName).Nodup :=
  ⟨by decide,
    (claim_C1_amended (fun _ _ _ => 0) (fun _ => none) ["p1", "p2", "p3"]
      ⟨[⟨"G", "", ["p1", "p2"]⟩]⟩ (by decide)
      (fun _ d hd => Option.noConfusion hd)).1,
    (claim_C1_amended (fun _ _ _ => 0) (fun _ => none) ["p1", "p2", "p3"]
      ⟨[⟨"G", "", ["p1", "p2"]⟩]⟩ (by decide)
      (fun _ d hd => Option.noConfusion hd)).2⟩

/-- Claim C8: merging a repair-round response whose text does not parse into
the expected standards shape returns the existing mapping unchanged (zero
items merged); a failed round leaves the loop to proceed to the next attempt
on the unchanged deduplicated mapping; whereas a malformed initial response
is a hard error from `parseResponse` that aborts that collection's run. -/
theorem claim_C8 :
    (∀ existing : StandardsMapping, mergeRetryResults existing none = existing)
      ∧ (∀ (choose : Nat → String → Nat → Nat)
          (retries : Nat → Option StandardsMapping)
          (orig : List (String × String)),
          runCategoryMapper choose retries orig none
            = Except.error "Invalid LLM response: missing categories")
      ∧ (∀ (choose : Nat → String → Nat → Nat)
          (retries : Nat → Option StandardsMapping)
          (orig : List (String × String)) (m : StandardsMapping),
          runCategoryMapper choose retries orig (some m)
            = Except.ok (postProcessMapping choose retries orig m))
      ∧ (∀ (choose : Nat → String → Nat → Nat)
          (retries : Nat → Option StandardsMapping)
          (orig : List (String × String)) (r attempt : Nat)
          (m : StandardsMapping),
          retries attempt = none →
          findMissingPractices orig
              (removeDuplicatesRandomly (choose attempt) m) ≠ [] →
          postLoop choose retries orig (r + 1 + 1) attempt m
            = postLoop choose retries orig (r + 1) (attempt + 1)
                (removeDuplicatesRandomly (choose attempt) m)) := by
  refine ⟨fun existing => rfl, fun choose retries orig => rfl,
    fun choose retries orig m => rfl, ?_⟩
  intro choose retries orig r attempt m hnone hmiss
  have hunfold : postLoop choose retries orig (r + 1 + 1) attempt m
      = if findMissingPractices orig
            (removeDuplicatesRandomly (choose attempt) m) = [] then
          removeDuplicatesRandomly (choose attempt) m
        else if r + 1 = 0 then
          removeDuplicatesRandomly (choose attempt) m
        else postLoop choose retries orig (r + 1) (attempt + 1)
            (mergeRetryResults
              (removeDuplicatesRandomly (choose attempt) m)
              (retries attempt)) := rfl
  rw [hunfold, if_neg hmiss, if_neg (Nat.succ_ne_zero r), hnone]
  rfl

/-- Witness for claim C8's loop-continuation conjunct at a concrete failed
round: with an empty mapping and one uncovered practice, attempt 1 falls
through to attempt 2 on the unchanged mapping. -/
theorem claim_C8_witness :
    ((fun _ : Nat => (none : Option StandardsMapping)) 1 = none)
      ∧ findMissingPractices (extractOriginalPracticeNames ["p1"])
          (removeDuplicatesRandomly ((fun _ _ _ => 0) 1) ⟨[]⟩) ≠ []
      ∧ postLoop (fun _ _ _ => 0) (fun _ => none)
          (extractOriginalPracticeNames ["p1"]) 2 1 ⟨[]⟩
        = postLoop (fun _ _ _ => 0) (fun _ => none)
            (extractOriginalPracticeNames ["p1"]) 1 2
            (removeDuplicatesRandomly ((fun _ _ _ => 0) 1) ⟨[]⟩) :=
  ⟨rfl, by decide,
    (claim_C8).2.2.2 (fun _ _ _ => 0) (fun _ => none)
      (extractOriginalPracticeNames ["p1"]) 0 1 ⟨[]⟩ rfl (by decide)⟩

/-! ## Standard description synthesis and the JSONL record parser -/

/-- The `practiceMap` of `buildStandardDescription`, a JavaScript `Map`
keyed by the exact practice name: `set` keeps the first-insertion position
and overwrites the value. -/
def mapSetPractice : List (String × ParsedPractice) → ParsedPractice →
    List (String × ParsedPractice)
  | [], p => [(p.name, p)]
  | kv :: rest, p =>
    if kv.1 = p.name then (kv.1, p) :: rest else kv :: mapSetPractice rest p

/-- `practiceMap.get(...)`: first entry with the exact key. -/
def mapGetPractice : List (String × ParsedPractice) → String →
    Option ParsedPractice
  | [], _ => none
  | kv :: rest, k => if kv.1 = k then some kv.2 else mapGetPractice rest k

/-- `buildStandardDescription`: for each rule in order, a `## {rule name}`
heading followed by the matching practice's description with every line
indented by three spaces; the per-rule blocks are joined by blank lines. -/
def buildStandardDescription (rules : List ValidatedRule)
    (practices : List ParsedPractice) : String :=
  let practiceMap := practices.foldl mapSetPractice []
  let descriptions := rules.map (fun rule =>
    let description :=
      ((mapGetPractice practiceMap rule.name).map
        ParsedPractice.description).getD ""
    let indentedDescription :=
      joinLines ((splitLines description).map (fun line => "   " ++ line))
    "## " ++ rule.name ++ "\n" ++ indentedDescription)
  String.intercalate "\n\n" descriptions

/-- The test fixture practice "Rule A". -/
def practiceRuleA : ParsedPractice :=
  ⟨"Rule A", "Description A", ["Testing"], [], "s", some false, some [],
    none⟩

/-- The test fixture practice "Rule B". -/
def practiceRuleB : ParsedPractice :=
  ⟨"Rule B", "Description B", ["Testing"], [], "s", some false, some [],
    none⟩

/-- Claim C6 (code bug): the spec — and the repository's own vitest test,
which expects the output to contain `## rule 1: Rule A` and
`## rule 2: Rule B` — require a heading carrying the member's 1-based
ordinal, but `buildStandardDescription` emits `## {name}` with no ordinal.
Evaluated at the test's own fixture, the output is exactly
`## Rule A\n   Description A\n\n## Rule B\n   Description B` and contains
no digit `1` anywhere, so the expected substring cannot occur. -/
theorem claim_C6_code_bug :
    buildStandardDescription
        [⟨"Rule A", [], [], none⟩, ⟨"Rule B", [], [], none⟩]
        [practiceRuleA, practiceRuleB]
      = "## Rule A\n   Description A\n\n## Rule B\n   Description B"
      ∧ (buildStandardDescription
          [⟨"Rule A", [], [], none⟩, ⟨"Rule B", [], [], none⟩]
          [practiceRuleA, practiceRuleB]).data.contains '1' = false := by
  exact ⟨by decide, by decide⟩

/-- Raw tooling payload as decoded from JSON (`parsed.toolings`); absent
fields are `none`. -/
structure RawToolings where
  status : Option String
  program : Option String
  programDescription : Option String
  language : Option String
deriving DecidableEq

/-- Raw practice payload as decoded from JSON, with the fields the parser
reads (the unused optional `guidelines` payload is omitted). -/
structure RawPractice where
  name : Option String
  description : Option String
  categories : Option (List String)
  examples : Option (List Example)
  space : Option String
  suggestionsDisabled : Option Bool
  detectionUnitTests : Option (List DetectionUnitTest)
  toolings : Option RawToolings
deriving DecidableEq

/-- JavaScript truthiness of a possibly-absent string field: absent and
`""` are both falsy. -/
def truthyStr (s : Option String) : Bool := !(s.getD "" == "")

/-- `parsePractice` (index.ts), after `JSON.parse` (the JSON syntax layer
is abstracted into the `RawPractice` value): validate the required
properties, copy the optional ones, and — when a `toolings` object is
present — require `toolings.language` to be present and to resolve via
`stringToProgrammingLanguage`, rejecting the whole record otherwise. -/
def parsePractice (parsed : RawPractice) : Except String ParsedPractice :=
  if !truthyStr parsed.name then
    Except.error "Missing required property: name"
  else if !truthyStr parsed.description then
    Except.error "Missing required property: description"
  else if parsed.categories = none then
    Except.error "Missing required property: categories"
  else if parsed.examples = none then
    Except.error "Missing required property: examples"
  else if !truthyStr parsed.space then
    Except.error "Missing required property: space"
  else
    match parsed.toolings with
    | none =>
      Except.ok
        { name := parsed.name.getD "",
          description := parsed.description.getD "",
          categories := parsed.categories.getD [],
          examples := parsed.examples.getD [],
          space := parsed.space.getD "",
          suggestionsDisabled := parsed.suggestionsDisabled,
          detectionUnitTests := parsed.detectionUnitTests,
          toolings := none }
    | some t =>
      if !truthyStr t.language then
        Except.error
          "has toolings but missing required property: toolings.language"
      else
        match stringToProgrammingLanguage (t.language.getD "") with
        | Except.error _ => Except.error "has invalid toolings.language"
        | Except.ok _ =>
          Except.ok
            { name := parsed.name.getD "",
              description := parsed.description.getD "",
              categories := parsed.categories.getD [],
              examples := parsed.examples.getD [],
              space := parsed.space.getD "",
              suggestionsDisabled := parsed.suggestionsDisabled,
              detectionUnitTests := parsed.detectionUnitTests,
              toolings := some ⟨t.status.getD "", t.program.getD "",
                t.programDescription.getD "", t.language.getD ""⟩ }

/-- Claim C10: for every raw record carrying a `toolings` object, parsing
rejects the whole record whenever `toolings.language` is absent (falsy) or
does not resolve to a known language identifier, display name or file
extension; and a record with `toolings` parses successfully only when its
`toolings.language` resolves. -/
theorem claim_C10 (raw : RawPractice) (t : RawToolings)
    (ht : raw.toolings = some t) :
    ((truthyStr t.language = false
        ∨ (∃ e, stringToProgrammingLanguage (t.language.getD "")
            = Except.error e)) →
      ∃ msg, parsePractice raw = Except.error msg)
    ∧ (∀ p, parsePractice raw = Except.ok p →
        ∃ l, stringToProgrammingLanguage (t.language.getD "")
          = Except.ok l) := by
  have hok : ∀ p, parsePractice raw = Except.ok p →
      ∃ l, stringToProgrammingLanguage (t.language.getD "")
        = Except.ok l := by
    intro p hres
    by_cases h1 : truthyStr raw.name = true
    · by_cases h2 : truthyStr raw.description = true
      · by_cases h3 : raw.categories = none
        · simp [parsePractice, h1, h2, h3] at hres
        · by_cases h4 : raw.examples = none
          · simp [parsePractice, h1, h2, h3, h4] at hres
          · by_cases h5 : truthyStr raw.space = true
            · by_cases h6 : truthyStr t.language = true
              · rcases hlang : stringToProgrammingLanguage
                  (t.language.getD "") with e | l
                · simp [parsePractice, h1, h2, h3, h4, h5, ht, h6, hlang]
                    at hres
                · exact ⟨l, rfl⟩
              · simp [parsePractice, h1, h2, h3, h4, h5, ht, h6] at hres
            · simp [parsePractice, h1, h2, h3, h4, h5] at hres
      · simp [parsePractice, h1, h2] at hres
    · simp [parsePractice, h1] at hres
  refine ⟨?_, hok⟩
  intro hbad
  rcases hres : parsePractice raw with msg | p
  · exact ⟨msg, rfl⟩
  · exfalso
    rcases hok p hres with ⟨l, hl⟩
    rcases hbad with hb | ⟨e, he⟩
    · have hlang : t.language.getD "" = "" := by
        simpa [truthyStr] using hb
      rw [hlang] at hl
      rw [show stringToProgrammingLanguage ""
          = Except.error LangFailure.emptyInput from rfl] at hl
      exact Except.noConfusion hl
    · rw [he] at hl
      exact Except.noConfusion hl

/-- A raw record whose tooling declares the unknown language "KLINGON". -/
def rawC10 : RawPractice :=
  ⟨some "P", some "d", some [], some [], some "s", none, none,
    some ⟨some "SUCCESS", some "prog", none, some "KLINGON"⟩⟩

/-- Witness for claim C10: the record `rawC10` carries a tooling whose
language "KLINGON" resolves to no known language, so parsing rejects it. -/
theorem claim_C10_witness :
    rawC10.toolings
        = some ⟨some "SUCCESS", some "prog", none, some "KLINGON"⟩
      ∧ ∃ msg, parsePractice rawC10 = Except.error msg :=
  ⟨rfl, (claim_C10 rawC10 ⟨some "SUCCESS", some "prog", none,
      some "KLINGON"⟩ rfl).1
    (Or.inr ⟨LangFailure.unknownLanguage, rfl⟩)⟩

end Packmind
